import Mathlib

/-! The container `utils::LinkedList` of Pac-Man (`src/common.h`).

A shallow embedding of the doubly-linked sequence container `utils::LinkedList<_Ty>`.

* The free store is an explicit `Heap`: a list of cells indexed by address.  A cell is
  `some node` while the node is alive and `none` once it has been deleted.  `new` always
  hands out the next unused address, so a deleted address is never reused.
* A `Node*` is a `Ptr = Option Nat`; `none` is `nullptr`.
* Every member function takes the heap and the container's fields and returns the new heap,
  the new fields and the returned value inside `Option`.  The result `none` means that the
  C++ call has no defined result: it dereferences `nullptr` or a deleted node, its loop
  never terminates, or it reaches an expression that does not type-check.
* Three expressions of the source do not type-check: `node.data` on a `Node*` in `_copy`,
  `return end();` in the `const` members `get_iterator(const _Ty*)` and
  `get_iterator(const _Ty&)`, and, for an element type that is not const-qualified,
  `new Node{ node->data }` in `operator+= (const LinkedList&)`.  A member holding such an
  expression cannot be instantiated, so no call of it compiles; the embedding gives the
  expression no value, and the claims on these members are settled at inputs that reach it.
* `Size` and `Offset` are `std::size_t`; `++_size`, `--_size` and `_size += n` wrap modulo
  `2 ^ 64`.
-/

namespace utils

/-- `struct Node { _Ty data; Node* next; Node* prev; }`. -/
structure Node (α : Type) where
  data : α
  next : Option Nat
  prev : Option Nat
deriving DecidableEq, Repr

/-- A `Node*`: `none` is `nullptr`, `some a` is the address `a`. -/
abbrev Ptr := Option Nat

/-- The free store: cell `a` holds the node living at address `a`, or `none` after `delete`. -/
abbrev Heap (α : Type) := List (Option (Node α))

/-- Number of values of `std::size_t` (`Size`, `Offset`). -/
def SIZE_MOD : Nat := 18446744073709551616

namespace Heap

variable {α : Type}

/-- The node stored at address `a`, if that node is alive. -/
def read (h : Heap α) (a : Nat) : Option (Node α) := (h[a]?).join

/-- Overwrite the (live) cell at address `a`. -/
def write (h : Heap α) (a : Nat) (n : Node α) : Heap α := h.set a (some n)

/-- `new Node{ data }`: the constructors set `next` and `prev` to `nullptr`. -/
def alloc (h : Heap α) (data : α) : Heap α × Nat :=
  (h ++ [some { data := data, next := none, prev := none }], h.length)

/-- `delete p`: undefined when `p` does not reference a live node. -/
def free (h : Heap α) (p : Ptr) : Option (Heap α) :=
  match p with
  | none => none
  | some a =>
    match read h a with
    | none => none
    | some _ => some (h.set a none)

/-- Evaluate `p->next`. -/
def getNext (h : Heap α) (p : Ptr) : Option Ptr :=
  match p with
  | none => none
  | some a => (read h a).map (fun n => n.next)

/-- Evaluate `p->prev`. -/
def getPrev (h : Heap α) (p : Ptr) : Option Ptr :=
  match p with
  | none => none
  | some a => (read h a).map (fun n => n.prev)

/-- Evaluate `p->data`. -/
def getData (h : Heap α) (p : Ptr) : Option α :=
  match p with
  | none => none
  | some a => (read h a).map (fun n => n.data)

/-- Execute `p->next = v`. -/
def setNext (h : Heap α) (p : Ptr) (v : Ptr) : Option (Heap α) :=
  match p with
  | none => none
  | some a =>
    match read h a with
    | none => none
    | some n => some (write h a { n with next := v })

/-- Execute `p->prev = v`. -/
def setPrev (h : Heap α) (p : Ptr) (v : Ptr) : Option (Heap α) :=
  match p with
  | none => none
  | some a =>
    match read h a with
    | none => none
    | some n => some (write h a { n with prev := v })

end Heap

/-- `LinkedList::iterator`: wraps the `Node* _node`; the end cursor holds `nullptr`. -/
structure iterator where
  _node : Ptr
deriving DecidableEq, Repr

/-- The data members of `LinkedList`: `_head`, `_tail`, `_size`. -/
structure LinkedList where
  _head : Ptr
  _tail : Ptr
  _size : Nat
deriving DecidableEq, Repr

namespace LinkedList

variable {α : Type}

/-- `LinkedList() = default`: the member initialisers give `nullptr`, `nullptr`, `0`. -/
def empty_list : LinkedList := { _head := none, _tail := none, _size := 0 }

/-- `end()`: `iterator()`. -/
def «end» : iterator := { _node := none }

/-- `begin()`: `iterator(_head)`. -/
def «begin» (l : LinkedList) : iterator := { _node := l._head }

/-- `empty()`: `!_head`. -/
def empty (l : LinkedList) : Bool := l._head.isNone

/-- `size()`. -/
def size (l : LinkedList) : Nat := l._size

/-- `_push_back(Node* node)`. -/
def _push_back (h : Heap α) (l : LinkedList) (node : Ptr) :
    Option (Heap α × LinkedList × iterator) :=
  match l._head with
  | none =>
    some (h, { _head := node, _tail := node, _size := (l._size + 1) % SIZE_MOD },
      { _node := node })
  | some _ => do
    let h1 ← Heap.setPrev h node l._tail
    let h2 ← Heap.setNext h1 l._tail node
    some (h2, { _head := l._head, _tail := node, _size := (l._size + 1) % SIZE_MOD },
      { _node := node })

/-- `_push_front(Node* node)`. -/
def _push_front (h : Heap α) (l : LinkedList) (node : Ptr) :
    Option (Heap α × LinkedList × iterator) :=
  match l._head with
  | none =>
    some (h, { _head := node, _tail := node, _size := (l._size + 1) % SIZE_MOD },
      { _node := node })
  | some _ => do
    let h1 ← Heap.setNext h node l._head
    let h2 ← Heap.setPrev h1 l._head node
    some (h2, { _head := node, _tail := l._tail, _size := (l._size + 1) % SIZE_MOD },
      { _node := node })

/-- `push_back(const _Ty& elem)`: `_push_back(new Node{ elem })`. -/
def push_back (h : Heap α) (l : LinkedList) (elem : α) :
    Option (Heap α × LinkedList × iterator) :=
  let (h1, a) := Heap.alloc h elem
  _push_back h1 l (some a)

/-- `push_front(const _Ty& elem)`: `_push_front(new Node{ elem })`. -/
def push_front (h : Heap α) (l : LinkedList) (elem : α) :
    Option (Heap α × LinkedList × iterator) :=
  let (h1, a) := Heap.alloc h elem
  _push_front h1 l (some a)

/-- `_insert(Node* node, Node* prev)`:
`node->prev = node; node->next = prev->next; prev->next->prev = node; prev->next = node;
return ++_size, node;`. -/
def _insert (h : Heap α) (l : LinkedList) (node : Ptr) (prev : Ptr) :
    Option (Heap α × LinkedList × iterator) := do
  let h1 ← Heap.setPrev h node node
  let pn ← Heap.getNext h1 prev
  let h2 ← Heap.setNext h1 node pn
  let pn2 ← Heap.getNext h2 prev
  let h3 ← Heap.setPrev h2 pn2 node
  let h4 ← Heap.setNext h3 prev node
  some (h4, { _head := l._head, _tail := l._tail, _size := (l._size + 1) % SIZE_MOD },
    { _node := node })

/-- The loop `while (index > 0) prev = prev->next, --index;` of `_insert(Offset, Node*)`. -/
def _insert_walk (h : Heap α) : Nat → Ptr → Option Ptr
  | 0, prev => some prev
  | index + 1, prev => do
    let next ← Heap.getNext h prev
    _insert_walk h index next

/-- `_insert(Offset index, Node* node)`. -/
def _insert_offset (h : Heap α) (l : LinkedList) (index : Nat) (node : Ptr) :
    Option (Heap α × LinkedList × iterator) :=
  if index = 0 then _push_front h l node
  else if index ≥ l._size then _push_back h l node
  else do
    let prev ← _insert_walk h index l._head
    _insert h l node prev

/-- `if (node->next) node->next->prev = node->prev;` of `_erase`. -/
def _erase_unlink_next (h : Heap α) (node : Ptr) : Option (Heap α) := do
  let next ← Heap.getNext h node
  match next with
  | some _ => do
    let np ← Heap.getPrev h node
    Heap.setPrev h next np
  | none => some h

/-- `if (node->prev) node->prev->next = node->next;` of `_erase`. -/
def _erase_unlink_prev (h : Heap α) (node : Ptr) : Option (Heap α) := do
  let prev ← Heap.getPrev h node
  match prev with
  | some _ => do
    let nn ← Heap.getNext h node
    Heap.setNext h prev nn
  | none => some h

/-- `if (node == _head) _head = node->next; else if (node == _tail) _tail = node->prev;`
of `_erase`. -/
def _erase_ends (h : Heap α) (l : LinkedList) (node : Ptr) : Option LinkedList :=
  if node = l._head then do
    let nn ← Heap.getNext h node
    some { _head := nn, _tail := l._tail, _size := l._size }
  else if node = l._tail then do
    let np ← Heap.getPrev h node
    some { _head := l._head, _tail := np, _size := l._size }
  else some l

/-- `_erase(Node* node)`: `Node* next = node->next;`, the two unlinking statements, the
update of the ends, `delete node; return --_size, next;`. -/
def _erase (h : Heap α) (l : LinkedList) (node : Ptr) :
    Option (Heap α × LinkedList × iterator) := do
  let next ← Heap.getNext h node
  let h1 ← _erase_unlink_next h node
  let h2 ← _erase_unlink_prev h1 node
  let l1 ← _erase_ends h2 l node
  let h3 ← Heap.free h2 node
  some (h3, { _head := l1._head, _tail := l1._tail,
              _size := (l1._size + (SIZE_MOD - 1)) % SIZE_MOD }, { _node := next })

/-- `insert(Offset index, const _Ty& elem)`: `_insert(index, new Node{ elem })`. -/
def insert_offset (h : Heap α) (l : LinkedList) (index : Nat) (elem : α) :
    Option (Heap α × LinkedList × iterator) :=
  let (h1, a) := Heap.alloc h elem
  _insert_offset h1 l index (some a)

/-- `insert(const iterator& it, const _Ty& elem)`. -/
def insert (h : Heap α) (l : LinkedList) (it : iterator) (elem : α) :
    Option (Heap α × LinkedList × iterator) :=
  if it._node.isNone then
    let (h1, a) := Heap.alloc h elem
    _push_back h1 l (some a)
  else
    let (h1, a) := Heap.alloc h elem
    _insert h1 l (some a) it._node

/-- The loop `while (node && index > 0) node = node->next;` of `get_iterator(Offset)`; the
body leaves `index` as it is.  `fuel` bounds the number of evaluations of the condition. -/
def get_iterator_loop (h : Heap α) (index : Nat) : Nat → Ptr → Option Ptr
  | 0, _ => none
  | fuel + 1, node =>
    match node with
    | none => some none
    | some _ =>
      if index > 0 then do
        let next ← Heap.getNext h node
        get_iterator_loop h index fuel next
      else some node

/-- `get_iterator(Offset index)`.  A walk over more live nodes than the heap has cells has
entered a cycle and never leaves the loop, so `h.length + 1` evaluations of the loop
condition decide the call. -/
def get_iterator_offset (h : Heap α) (l : LinkedList) (index : Nat) : Option iterator :=
  (get_iterator_loop h index (h.length + 1) l._head).map (fun p => { _node := p })

/-- `erase(const iterator& it)`. -/
def erase (h : Heap α) (l : LinkedList) (it : iterator) :
    Option (Heap α × LinkedList × iterator) :=
  match it._node with
  | some _ => _erase h l it._node
  | none => some (h, l, «end»)

/-- `erase(Offset index)`: `erase(get_iterator(index))`. -/
def erase_offset (h : Heap α) (l : LinkedList) (index : Nat) :
    Option (Heap α × LinkedList × iterator) := do
  let it ← get_iterator_offset h l index
  erase h l it

/-- `at(Offset index)` and `operator[] (Offset index)`: `*get_iterator(index)`. -/
def «at» (h : Heap α) (l : LinkedList) (index : Nat) : Option α := do
  let it ← get_iterator_offset h l index
  Heap.getData h it._node

/-- The loop `for (Node* node = _head, *next; node; node = next) { next = node->next;
delete node; }` of `_destroy`. -/
def _destroy_loop : Nat → Heap α → Ptr → Option (Heap α)
  | 0, _, _ => none
  | fuel + 1, h, node =>
    match node with
    | none => some h
    | some _ => do
      let next ← Heap.getNext h node
      let h1 ← Heap.free h node
      _destroy_loop fuel h1 next

/-- `_destroy()`. -/
def _destroy (h : Heap α) (l : LinkedList) : Option (Heap α × LinkedList) := do
  let h1 ←
    match l._head with
    | some _ => _destroy_loop (h.length + 1) h l._head
    | none => some h
  some (h1, { _head := none, _tail := none, _size := 0 })

/-- `clear()`: `_destroy()`. -/
def clear (h : Heap α) (l : LinkedList) : Option (Heap α × LinkedList) := _destroy h l

/-- `_move(LinkedList&& list, bool reset)`: `if (reset) _destroy(); _head = list._head;
_tail = list._tail; _size = list._size;`.  The body assigns nothing to `list` and has no
`return` statement; the result is the heap, this container and `list` afterwards. -/
def _move (h : Heap α) (l : LinkedList) (list : LinkedList) (reset : Bool) :
    Option (Heap α × LinkedList × LinkedList) := do
  let (h1, _) ← if reset then _destroy h l else some (h, l)
  some (h1, { _head := list._head, _tail := list._tail, _size := list._size }, list)

/-- `LinkedList(LinkedList&& list) : LinkedList{} { _move(std::move(list), false); }`. -/
def move_construct (h : Heap α) (list : LinkedList) :
    Option (Heap α × LinkedList × LinkedList) :=
  _move h empty_list list false

/-- `operator= (LinkedList&& right)`: `_move(std::move(right), true)`. -/
def move_assign (h : Heap α) (l : LinkedList) (right : LinkedList) :
    Option (Heap α × LinkedList × LinkedList) :=
  _move h l right true

/-- `operator+= (LinkedList&& right)` on two distinct containers; the result is the heap,
this container and `right` afterwards. -/
def operator_add_assign_move (h : Heap α) (l : LinkedList) (right : LinkedList) :
    Option (Heap α × LinkedList × LinkedList) := do
  let h1 ← Heap.setNext h l._tail right._head
  let (h2, tail2) ←
    match right._head with
    | some _ => do
      let h2 ← Heap.setPrev h1 right._head l._tail
      some (h2, right._tail)
    | none => some (h1, l._tail)
  some (h2, { _head := l._head, _tail := tail2, _size := (l._size + right._size) % SIZE_MOD },
    { _head := none, _tail := none, _size := 0 })

/-- The `if (!_head) ... else ...` statement in the loop body of `_copy`: `newnode` becomes
head and tail of an empty list and is linked behind `_tail` otherwise; `_size` is not
touched. -/
def _copy_link (h : Heap α) (l : LinkedList) (newnode : Ptr) : Option (Heap α × LinkedList) :=
  match l._head with
  | none => some (h, { _head := newnode, _tail := newnode, _size := l._size })
  | some _ => do
    let h1 ← Heap.setPrev h newnode l._tail
    let h2 ← Heap.setNext h1 l._tail newnode
    some (h2, { _head := l._head, _tail := newnode, _size := l._size })

/-- The expression `node.data` of `_copy`, with `node` of type `Node*`: the member access
`.` needs an object of class type on its left and a pointer has no member `data`, so the
expression does not type-check for any element type and has no value.  (The loop of
`operator+= (const LinkedList&)` spells the same read `node->data`.) -/
def node_dot_data (_h : Heap α) (_node : Ptr) : Option α := none

/-- The loop `for (Node* node = list._head; node; node = node->next) { Node* newnode =
new Node{ node.data }; ... }` of `_copy`.  The first statement of the body evaluates
`node.data`, which has no value, so a pass of the loop has no result.  The nodes created by
the loop are not part of the chain that is walked, so a walk over more nodes than the heap
had cells at the start never ends. -/
def _copy_loop : Nat → Heap α → LinkedList → Ptr → Option (Heap α × LinkedList)
  | 0, _, _, _ => none
  | fuel + 1, h, l, node =>
    match node with
    | none => some (h, l)
    | some _ => do
      let data ← node_dot_data h node
      let (h1, a) := Heap.alloc h data
      let (h2, l2) ← _copy_link h1 l (some a)
      let next ← Heap.getNext h2 node
      _copy_loop fuel h2 l2 next

/-- `_copy(const LinkedList& list, bool reset)` for a `list` that is not this container:
`if (reset) _destroy();`, the loop, `return _size = list._size, *this;`.  No call on a
`list` with a node has a result, because of `node.data` in the loop. -/
def _copy (h : Heap α) (l : LinkedList) (list : LinkedList) (reset : Bool) :
    Option (Heap α × LinkedList) := do
  let (h0, l0) ← if reset then _destroy h l else some (h, l)
  let (h1, l1) ← _copy_loop (h0.length + 1) h0 l0 list._head
  some (h1, { _head := l1._head, _tail := l1._tail, _size := list._size })

/-- `LinkedList(const LinkedList& list) : LinkedList{} { _copy(list, false); }`: the heap
afterwards and the new container. -/
def copy_construct (h : Heap α) (list : LinkedList) : Option (Heap α × LinkedList) :=
  _copy h empty_list list false

/-- `operator= (const LinkedList& right)` for `right` other than this container:
`_copy(right, true)`. -/
def copy_assign (h : Heap α) (l : LinkedList) (right : LinkedList) :
    Option (Heap α × LinkedList) :=
  _copy h l right true

/-- A `const _Ty*`, or the address of the object a `const _Ty&` is bound to: the address of
the `data` member of the node at address `a`, the address of an object that is no node's
`data` member, or `nullptr`. -/
inductive ElemPtr where
  | data_of (a : Nat)
  | other (k : Nat)
  | null
deriving DecidableEq, Repr

/-- The statement `return end();` of a `const` member whose return type is `iterator`: on
the `const` object overload resolution selects `const_iterator end() const`, and
`const_iterator` has no conversion to `iterator`, so the statement does not type-check for
any element type and returns nothing.  (`return node;` in the same members converts a
`Node*` through `iterator(Node*)`.) -/
def const_end_as_iterator : Option iterator := none

/-- The loop `for (Node* node = _head; node; node = node->next) if (&node->data == elem_ptr)
return node;` followed by `return end();`, shared by the `const` members
`get_iterator(const _Ty*)` and `get_iterator(const _Ty&)`. -/
def get_iterator_ptr_loop (h : Heap α) (elem_ptr : ElemPtr) : Nat → Ptr → Option iterator
  | 0, _ => none
  | fuel + 1, node =>
    match node with
    | none => const_end_as_iterator
    | some a =>
      if ElemPtr.data_of a = elem_ptr then some { _node := node }
      else do
        let next ← Heap.getNext h node
        get_iterator_ptr_loop h elem_ptr fuel next

/-- `get_iterator(const _Ty* elem_ptr) const`. -/
def get_iterator_ptr (h : Heap α) (l : LinkedList) (elem_ptr : ElemPtr) : Option iterator :=
  get_iterator_ptr_loop h elem_ptr (h.length + 1) l._head

/-- `get_iterator(const _Ty& elem) const`, with `elem_addr` the address `&elem`. -/
def get_iterator_ref (h : Heap α) (l : LinkedList) (elem_addr : ElemPtr) : Option iterator :=
  get_iterator_ptr_loop h elem_addr (h.length + 1) l._head

/-- `erase(const _Ty* elem_ptr)`: `erase(get_iterator(elem_ptr))`. -/
def erase_ptr (h : Heap α) (l : LinkedList) (elem_ptr : ElemPtr) :
    Option (Heap α × LinkedList × iterator) := do
  let it ← get_iterator_ptr h l elem_ptr
  erase h l it

/-- `erase(const _Ty& elem)`: `erase(get_iterator(elem))`. -/
def erase_ref (h : Heap α) (l : LinkedList) (elem_addr : ElemPtr) :
    Option (Heap α × LinkedList × iterator) := do
  let it ← get_iterator_ref h l elem_addr
  erase h l it

/-- The loop `while (it != to) it = erase(it);` of `erase(from, to)`.  Every pass that
erases a node frees a cell and a pass on the end cursor changes nothing, so more passes than
the heap has cells never end. -/
def erase_range_loop : Nat → Heap α → LinkedList → iterator → iterator →
    Option (Heap α × LinkedList × iterator)
  | 0, _, _, _, _ => none
  | fuel + 1, h, l, it, «to» =>
    if it ≠ «to» then do
      let (h1, l1, it1) ← erase h l it
      erase_range_loop fuel h1 l1 it1 «to»
    else some (h, l, it)

/-- `erase(const iterator& from, const iterator& to)`: `iterator it = from;`, the loop,
`return it;`. -/
def erase_range (h : Heap α) (l : LinkedList) («from» : iterator) («to» : iterator) :
    Option (Heap α × LinkedList × iterator) :=
  erase_range_loop (h.length + 1) h l «from» «to»

/-- The loop `for (Node* node = _head, *next; node; node = next) { next = node->next;
onDestroyAction(node->data); delete node; }` of `clear(onDestroyAction)`.  The callback acts
on a state `σ` of its own: `f s x` is that state after the call on the element `x` in state
`s`; it does not touch the container. -/
def clear_loop {σ : Type} (f : σ → α → σ) : Nat → Heap α → σ → Ptr → Option (Heap α × σ)
  | 0, _, _, _ => none
  | fuel + 1, h, s, node =>
    match node with
    | none => some (h, s)
    | some _ => do
      let next ← Heap.getNext h node
      let data ← Heap.getData h node
      let h1 ← Heap.free h node
      clear_loop f fuel h1 (f s data) next

/-- `clear(const Function<void(_Ty&)>& onDestroyAction)`: the heap, the container and the
callback's state afterwards. -/
def clear_with {σ : Type} (f : σ → α → σ) (s : σ) (h : Heap α) (l : LinkedList) :
    Option (Heap α × LinkedList × σ) := do
  let (h1, s1) ←
    match l._head with
    | some _ => clear_loop f (h.length + 1) h s l._head
    | none => some (h, s)
  some (h1, { _head := none, _tail := none, _size := 0 }, s1)

/-- The expression `new Node{ node->data }` of `operator+= (const LinkedList&)`, with `node`
a `Node*` and `data` the value of `node->data`.  `const_elem` tells whether the element type
`_Ty` is const-qualified.  The argument is an lvalue of type `_Ty`.  When `_Ty` is
const-qualified, `Node(const _Ty&)` is an exact match and, not being a template, is chosen:
the node is allocated as by `Heap.alloc`.  Otherwise the constructor template
`Node(_Args&&... args)` with `_Args = _Ty&` is the better match, and its initializer
`data{ std::forward(args)... }` calls `std::forward` without the template argument, which
cannot be deduced: the expression does not type-check and has no value. -/
def new_node_of_node_data (const_elem : Bool) (h : Heap α) (data : α) :
    Option (Heap α × Nat) :=
  if const_elem then some (Heap.alloc h data) else none

/-- The loop `for (Node* node = right._head; node; node = node->next)
_push_back(new Node{ node->data });` of `operator+= (const LinkedList&)`, for an element
type that is const-qualified (`const_elem`) or not. -/
def operator_add_assign_copy_loop (const_elem : Bool) : Nat → Heap α → LinkedList → Ptr →
    Option (Heap α × LinkedList)
  | 0, _, _, _ => none
  | fuel + 1, h, l, node =>
    match node with
    | none => some (h, l)
    | some _ => do
      let data ← Heap.getData h node
      let (h1, a) ← new_node_of_node_data const_elem h data
      let (h2, l2, _) ← _push_back h1 l (some a)
      let next ← Heap.getNext h2 node
      operator_add_assign_copy_loop const_elem fuel h2 l2 next

/-- `operator+= (const LinkedList& right)` for `right` other than this container: the heap
and this container afterwards (`right` is `const`). -/
def operator_add_assign_copy (const_elem : Bool) (h : Heap α) (l : LinkedList)
    (right : LinkedList) : Option (Heap α × LinkedList) :=
  operator_add_assign_copy_loop const_elem (h.length + 1) h l right._head

/-- `operator+ (const LinkedList& right)`: `LinkedList list = *this; return list += right;`.
The returned value is copy-constructed from `list`, then the local `list` is destroyed.
The result is the heap afterwards and the returned container; this container and `right`
keep their fields. -/
def operator_add_copy (const_elem : Bool) (h : Heap α) (l : LinkedList)
    (right : LinkedList) : Option (Heap α × LinkedList) := do
  let (h1, list) ← copy_construct h l
  let (h2, list2) ← operator_add_assign_copy const_elem h1 list right
  let (h3, result) ← copy_construct h2 list2
  let (h4, _) ← _destroy h3 list2
  some (h4, result)

/-- The addresses met by `for (Node* n = p; n; n = n->next)`, at most `fuel` of them: a walk
stops at `nullptr` and at a node that is not alive. -/
def nodes_next (h : Heap α) : Nat → Ptr → List Nat
  | 0, _ => []
  | _ + 1, none => []
  | fuel + 1, some a =>
    match Heap.read h a with
    | none => []
    | some n => a :: nodes_next h fuel n.next

/-- The addresses met by `for (Node* n = p; n; n = n->prev)`, at most `fuel` of them. -/
def nodes_prev (h : Heap α) : Nat → Ptr → List Nat
  | 0, _ => []
  | _ + 1, none => []
  | fuel + 1, some a =>
    match Heap.read h a with
    | none => []
    | some n => a :: nodes_prev h fuel n.prev

/-- The elements met by `for (Node* n = p; n; n = n->next)`, at most `fuel` of them. -/
def data_next (h : Heap α) : Nat → Ptr → List α
  | 0, _ => []
  | _ + 1, none => []
  | fuel + 1, some a =>
    match Heap.read h a with
    | none => []
    | some n => n.data :: data_next h fuel n.next

/-- The head-to-tail element sequence: the `data` of the nodes met from `_head` along `next`.
A heap of `h.length` cells holds no longer chain. -/
def to_list (h : Heap α) (l : LinkedList) : List α :=
  data_next h (h.length + 1) l._head

/-- The link `prev` a node at position `i` of the address chain `as` has to hold. -/
def prev_at (as : List Nat) (i : Nat) : Ptr := if i = 0 then none else as[i - 1]?

/-- Every node of the chain is alive and holds its element and the addresses of its
structural successor and predecessor (`nullptr` at the two ends). -/
def cells_linked (h : Heap α) (as : List Nat) (xs : List α) : Prop :=
  ∀ i, i < as.length →
    (as[i]?).bind (Heap.read h) =
      (xs[i]?).map (fun x => { data := x, next := as[i + 1]?, prev := prev_at as i })

/-- The container owns the nodes at the pairwise distinct addresses `as`, in this order,
holding the elements `xs`: `_head` is the first of them, `_size` their number, and `_tail`
the last one when there is one. -/
def Linked (h : Heap α) (l : LinkedList) (as : List Nat) (xs : List α) : Prop :=
  as.Nodup ∧ as.length = xs.length ∧ l._head = as.head? ∧ l._size = as.length ∧
    l._size < SIZE_MOD ∧ (as ≠ [] → l._tail = as.getLast?) ∧ cells_linked h as xs

/-- A well-formed list (spec, section 3): `Linked`, and `_tail` is `nullptr` when the list
is empty, so that `_head == nullptr`, `_tail == nullptr` and `_size == 0` agree. -/
def WellFormed (h : Heap α) (l : LinkedList) (as : List Nat) (xs : List α) : Prop :=
  Linked h l as xs ∧ l._tail = as.getLast?

instance [DecidableEq α] (h : Heap α) (as : List Nat) (xs : List α) :
    Decidable (cells_linked h as xs) := by
  unfold cells_linked; infer_instance

instance [DecidableEq α] (h : Heap α) (l : LinkedList) (as : List Nat) (xs : List α) :
    Decidable (Linked h l as xs) := by
  unfold Linked; infer_instance

instance [DecidableEq α] (h : Heap α) (l : LinkedList) (as : List Nat) (xs : List α) :
    Decidable (WellFormed h l as xs) := by
  unfold WellFormed; infer_instance

/-- The emptiness invariant of the spec (section 3): `_head == nullptr`, `_tail == nullptr`
and `_size == 0` hold together or not at all. -/
def empty_agree (l : LinkedList) : Prop :=
  (l._head = none ↔ l._tail = none) ∧ (l._tail = none ↔ l._size = 0)

instance (l : LinkedList) : Decidable (empty_agree l) := by
  unfold empty_agree; infer_instance

/-- The loop `while (it != to) it = erase(it);` of `erase(from, to)` with a counter of its
passes: the second component of the result is the number of calls `erase(it)` made. -/
def erase_range_loop_count : Nat → Heap α → LinkedList → iterator → iterator →
    Option ((Heap α × LinkedList × iterator) × Nat)
  | 0, _, _, _, _ => none
  | fuel + 1, h, l, it, «to» =>
    if it ≠ «to» then do
      let (h1, l1, it1) ← erase h l it
      let (r, n) ← erase_range_loop_count fuel h1 l1 it1 «to»
      some (r, n + 1)
    else some ((h, l, it), 0)

/-- `erase(const iterator& from, const iterator& to)` with the counter of its loop: the
value `erase(from, to)` returns, paired with the number of calls `erase(it)` it made. -/
def erase_range_count (h : Heap α) (l : LinkedList) («from» : iterator) («to» : iterator) :
    Option ((Heap α × LinkedList × iterator) × Nat) :=
  erase_range_loop_count (h.length + 1) h l «from» «to»

/-- The states of a container reached from the default-constructed list by `push_back`,
`push_front`, `insert` at offset 0 or at an offset `>= size()`, `erase` of the cursor of a
node met from `_head` along `next`, and `clear()`, each call returning.  The default
constructor may run in any heap; an insertion is made while the count can still grow within
`Size`. -/
inductive Reachable : Heap α → LinkedList → Prop where
  | init (h : Heap α) : Reachable h empty_list
  | push_back {h h1 : Heap α} {l l1 : LinkedList} {it : iterator} (v : α) :
      Reachable h l → l.size + 1 < SIZE_MOD → push_back h l v = some (h1, l1, it) →
      Reachable h1 l1
  | push_front {h h1 : Heap α} {l l1 : LinkedList} {it : iterator} (v : α) :
      Reachable h l → l.size + 1 < SIZE_MOD → push_front h l v = some (h1, l1, it) →
      Reachable h1 l1
  | insert_offset {h h1 : Heap α} {l l1 : LinkedList} {it : iterator} (offset : Nat) (v : α) :
      Reachable h l → l.size + 1 < SIZE_MOD → (offset = 0 ∨ offset ≥ l.size) →
      insert_offset h l offset v = some (h1, l1, it) → Reachable h1 l1
  | erase {h h1 : Heap α} {l l1 : LinkedList} {it : iterator} (a : Nat) :
      Reachable h l → a ∈ nodes_next h (h.length + 1) l._head →
      erase h l { _node := some a } = some (h1, l1, it) → Reachable h1 l1
  | clear {h h1 : Heap α} {l l1 : LinkedList} :
      Reachable h l → clear h l = some (h1, l1) → Reachable h1 l1

/-- `LinkedList<int> l; for (x : xs) l.push_back(x);` executed in the heap `h`. -/
def build_on (h : Heap Nat) (xs : List Nat) : Option (Heap Nat × LinkedList) :=
  xs.foldl (fun st x => st.bind (fun s => (push_back s.1 s.2 x).map (fun r => (r.1, r.2.1))))
    (some (h, empty_list))

/-- `LinkedList<int> l; for (x : xs) l.push_back(x);` executed in the empty heap. -/
def build (xs : List Nat) : Option (Heap Nat × LinkedList) := build_on [] xs

end LinkedList

/-- `std::min(a, b)` of the C++ standard library on integers: `(b < a) ? b : a`. -/
def std_min (a b : Int) : Int := if b < a then b else a

/-- `std::max(a, b)` of the C++ standard library on integers: `(a < b) ? b : a`. -/
def std_max (a b : Int) : Int := if a < b then b else a

/-- `utils::clamp(value, min, max)` with the three arguments of one integer type:
`return std::max(std::min(max, value), min);`. -/
def clamp (value min max : Int) : Int := std_max (std_min max value) min

/-- The heap after `push_back(0); push_back(1); push_back(2)` on a fresh list. -/
def heap_012 : Heap Nat :=
  [some { data := 0, next := some 1, prev := none },
   some { data := 1, next := some 2, prev := some 0 },
   some { data := 2, next := none, prev := some 1 }]

/-- The list `[0,1,2]` living in `heap_012`. -/
def list_012 : LinkedList := { _head := some 0, _tail := some 2, _size := 3 }

/-- The heap after `insert(1, 9)` on the list `[0,1,2]` of `heap_012`. -/
def heap_0192 : Heap Nat :=
  [some { data := 0, next := some 1, prev := none },
   some { data := 1, next := some 3, prev := some 0 },
   some { data := 2, next := none, prev := some 3 },
   some { data := 9, next := some 2, prev := some 3 }]

/-- The list fields after `insert(1, 9)` on `list_012`. -/
def list_0192 : LinkedList := { _head := some 0, _tail := some 2, _size := 4 }

/-- The heap after `push_back(7)` on a fresh list. -/
def heap_7 : Heap Nat := [some { data := 7, next := none, prev := none }]

/-- The one-element list `[7]` living in `heap_7`. -/
def list_7 : LinkedList := { _head := some 0, _tail := some 0, _size := 1 }

/-- The heap after `push_back(0); push_back(2)` on a fresh list `A`. -/
def heap_02 : Heap Nat :=
  [some { data := 0, next := some 1, prev := none },
   some { data := 2, next := none, prev := some 0 }]

/-- The heap holding `A = [0,2]` (addresses 0, 1) and `B = [5,6]` (addresses 2, 3). -/
def heap_02_56 : Heap Nat :=
  [some { data := 0, next := some 1, prev := none },
   some { data := 2, next := none, prev := some 0 },
   some { data := 5, next := some 3, prev := none },
   some { data := 6, next := none, prev := some 2 }]

/-- The list `A = [0,2]` of `heap_02_56`. -/
def list_02 : LinkedList := { _head := some 0, _tail := some 1, _size := 2 }

/-- The list `B = [5,6]` of `heap_02_56`. -/
def list_56 : LinkedList := { _head := some 2, _tail := some 3, _size := 2 }

/-- The heap after `insert(1, 9)` on the list `[0,1,2]` of `heap_012` and `erase` of the
cursor that `insert` returned: the node at address 1 still points to the deleted node. -/
def heap_01x2 : Heap Nat :=
  [some { data := 0, next := some 1, prev := none },
   some { data := 1, next := some 3, prev := some 0 },
   some { data := 2, next := none, prev := some 3 },
   none]

/-- The list fields after `insert(1, 9)` on `list_012` and `erase` of the returned cursor. -/
def list_01x2 : LinkedList := { _head := some 0, _tail := some 2, _size := 3 }

/-- The heap holding `L = [7]` (address 0) and `B = [8]` (address 1). -/
def heap_7_8 : Heap Nat :=
  [some { data := 7, next := none, prev := none },
   some { data := 8, next := none, prev := none }]

/-- The list `B = [8]` of `heap_7_8`; `L = [7]` has the fields `list_7`. -/
def list_8 : LinkedList := { _head := some 1, _tail := some 1, _size := 1 }

/-- The heap after `L.erase(B.begin())` in `heap_7_8`: the node of `B` is deleted, the node
of `L` is alive. -/
def heap_7_x : Heap Nat := [some { data := 7, next := none, prev := none }, none]

/-- The fields of `L` after `L.erase(B.begin())`: the node of `L` is still its head and
tail, the count is 0. -/
def list_7_counted_out : LinkedList := { _head := some 0, _tail := some 0, _size := 0 }

/-- The heap after `erase(begin())` on the list `[7]` of `heap_7`. -/
def heap_drained : Heap Nat := [none]

/-- The list fields after `erase(begin())` on `list_7`. -/
def list_drained : LinkedList := { _head := none, _tail := some 0, _size := 0 }

end utils

/-! ## Lemmas on the heap -/

namespace utils

namespace Heap

variable {α : Type}

/-- An address that holds a live node lies inside the heap. -/
theorem read_lt {h : Heap α} {a : Nat} {n : Node α} (hr : read h a = some n) :
    a < h.length := by
  unfold read at hr
  by_contra hlt
  rw [List.getElem?_eq_none (by omega)] at hr
  simp at hr

theorem read_write_same {h : Heap α} {a : Nat} {n : Node α} (ha : a < h.length) :
    read (write h a n) a = some n := by
  simp [read, write, ha]

theorem read_write_ne {h : Heap α} {a b : Nat} {n : Node α} (hab : a ≠ b) :
    read (write h a n) b = read h b := by
  simp [read, write, List.getElem?_set_ne hab]

theorem read_append_left {h t : Heap α} {a : Nat} (ha : a < h.length) :
    read (h ++ t) a = read h a := by
  simp [read, List.getElem?_append_left ha]

theorem read_append_new {h : Heap α} {n : Node α} :
    read (h ++ [some n]) h.length = some n := by
  simp [read]

theorem length_write {h : Heap α} {a : Nat} {n : Node α} :
    (write h a n).length = h.length := by
  simp [write]

theorem read_write {h : Heap α} {a : Nat} {n : Node α} (ha : a < h.length) (c : Nat) :
    read (write h a n) c = if a = c then some n else read h c := by
  by_cases hac : a = c
  · subst hac; rw [read_write_same ha, if_pos rfl]
  · rw [read_write_ne hac, if_neg hac]

theorem setPrev_eq {h : Heap α} {b : Nat} {n : Node α} (hr : read h b = some n) (v : Ptr) :
    setPrev h (some b) v = some (write h b { n with prev := v }) := by
  simp only [setPrev, hr]

theorem setNext_eq {h : Heap α} {b : Nat} {n : Node α} (hr : read h b = some n) (v : Ptr) :
    setNext h (some b) v = some (write h b { n with next := v }) := by
  simp only [setNext, hr]

theorem free_eq {h : Heap α} {a : Nat} {n : Node α} (hr : read h a = some n) :
    free h (some a) = some (h.set a none) := by
  simp only [free, hr]

theorem read_set_none {h : Heap α} {a : Nat} (c : Nat) :
    read (h.set a none) c = if a = c then none else read h c := by
  by_cases hac : a = c
  · subst hac
    rw [if_pos rfl]
    unfold read
    by_cases ha : a < h.length
    · simp [ha]
    · rw [List.getElem?_eq_none (by simp; omega)]; rfl
  · rw [if_neg hac]
    unfold read
    rw [List.getElem?_set_ne hac]

end Heap

/-! ## Lemmas on linked chains and on the member functions -/

namespace LinkedList

variable {α : Type}

/-- The cell condition, node by node. -/
theorem cells_linked_iff {h : Heap α} {as : List Nat} {xs : List α}
    (hl : as.length = xs.length) :
    cells_linked h as xs ↔ ∀ i a x, as[i]? = some a → xs[i]? = some x →
      Heap.read h a = some { data := x, next := as[i + 1]?, prev := prev_at as i } := by
  constructor
  · intro hc i a x ha hx
    have hi : i < as.length := (List.getElem?_eq_some_iff.mp ha).1
    have := hc i hi
    rw [ha, hx] at this
    simpa using this
  · intro hc i hi
    have hi2 : i < xs.length := hl ▸ hi
    have ha : as[i]? = some as[i] := List.getElem?_eq_getElem hi
    have hx : xs[i]? = some xs[i] := List.getElem?_eq_getElem hi2
    rw [ha, hx]
    simpa using hc i _ _ ha hx

/-- The node at position `i` of a linked chain: its element and its two links. -/
theorem Linked.cell {h : Heap α} {l : LinkedList} {as : List Nat} {xs : List α}
    (hL : Linked h l as xs) {i a : Nat} (ha : as[i]? = some a) :
    ∃ x, xs[i]? = some x ∧
      Heap.read h a = some { data := x, next := as[i + 1]?, prev := prev_at as i } := by
  obtain ⟨_, hlen, _, _, _, _, hc⟩ := hL
  have hi : i < as.length := (List.getElem?_eq_some_iff.mp ha).1
  have hx : xs[i]? = some xs[i] := List.getElem?_eq_getElem (hlen ▸ hi)
  exact ⟨_, hx, (cells_linked_iff hlen).mp hc i a _ ha hx⟩

/-- Every node of a linked chain is allocated. -/
theorem Linked.addr_lt {h : Heap α} {l : LinkedList} {as : List Nat} {xs : List α}
    (hL : Linked h l as xs) {a : Nat} (ha : a ∈ as) : a < h.length := by
  obtain ⟨i, hi⟩ := List.getElem?_of_mem ha
  obtain ⟨x, _, hr⟩ := hL.cell hi
  exact Heap.read_lt hr

/-- A linked chain has no more nodes than the heap has cells. -/
theorem Linked.length_le {h : Heap α} {l : LinkedList} {as : List Nat} {xs : List α}
    (hL : Linked h l as xs) : as.length ≤ h.length := by
  have hsub : as ⊆ List.range h.length := fun a ha => List.mem_range.mpr (hL.addr_lt ha)
  have := (List.subperm_of_subset hL.1 hsub).length_le
  simpa using this

theorem prev_at_append_left {as bs : List Nat} {i : Nat} (hi : i < as.length) :
    prev_at (as ++ bs) i = prev_at as i := by
  unfold prev_at
  split
  · rfl
  · rw [List.getElem?_append_left (by omega)]

theorem Linked.head_eq {h : Heap α} {l : LinkedList} {as : List Nat} {xs : List α}
    (hL : Linked h l as xs) : l._head = as[0]? := by
  rw [← List.head?_eq_getElem?]; exact hL.2.2.1

theorem Linked.tail_eq {h : Heap α} {l : LinkedList} {as : List Nat} {xs : List α}
    (hL : Linked h l as xs) {n : Nat} (hn : as.length = n + 1) : l._tail = as[n]? := by
  have := hL.2.2.2.2.2.1 (by intro e; simp [e] at hn)
  rw [this, List.getLast?_eq_getElem?, hn]; rfl

/-- `push_back(v)` on a linked chain whose count can grow: it succeeds, allocates the node at
the fresh address `h.length`, links it behind the tail and leaves a well-formed list; nodes
outside the chain are untouched. -/
theorem push_back_linked {h : Heap α} {l : LinkedList} {as : List Nat} {xs : List α} (v : α)
    (hL : Linked h l as xs) (hsz : l._size + 1 < SIZE_MOD) :
    ∃ h1 l1, push_back h l v = some (h1, l1, { _node := some h.length }) ∧
      WellFormed h1 l1 (as ++ [h.length]) (xs ++ [v]) ∧ l1._size = l._size + 1 ∧
      h1.length = h.length + 1 ∧
      ∀ b, b < h.length → b ∉ as → Heap.read h1 b = Heap.read h b := by
  have hfresh : h.length ∉ as := fun hm => Nat.lt_irrefl _ (hL.addr_lt hm)
  obtain ⟨hnd, hlen, hhead, hsize, hlt, htail, hc⟩ := id hL
  have hmod : (l._size + 1) % SIZE_MOD = l._size + 1 := Nat.mod_eq_of_lt hsz
  have hlen2 : (as ++ [h.length]).length = (xs ++ [v]).length := by
    simp only [List.length_append, hlen, List.length_singleton]
  have hnd2 : (as ++ [h.length]).Nodup :=
    List.Nodup.append hnd (List.nodup_singleton _)
      (by simpa [List.disjoint_singleton] using hfresh)
  have hlast2 : (as ++ [h.length]).getLast? = some h.length := by simp
  rcases Nat.eq_zero_or_pos as.length with h0 | hpos
  · have has : as = [] := List.length_eq_zero.mp h0
    subst has
    have hxs : xs = [] := List.length_eq_zero.mp hlen.symm
    subst hxs
    simp only [List.head?_nil] at hhead
    have hpb : push_back h l v = some (h ++ [some { data := v, next := none, prev := none }],
        { _head := some h.length, _tail := some h.length, _size := l._size + 1 },
        { _node := some h.length }) := by
      simp only [push_back, Heap.alloc, _push_back, hhead, hmod]
    refine ⟨_, _, hpb, ?_, rfl, by simp, fun b hb _ => Heap.read_append_left hb⟩
    simp only [List.length_nil] at hsize
    simp [WellFormed, Linked, cells_linked, hsize, Heap.read, prev_at, SIZE_MOD]
  · obtain ⟨n, hn1⟩ : ∃ n, as.length = n + 1 := ⟨as.length - 1, by omega⟩
    obtain ⟨t, hn⟩ : ∃ t, as[n]? = some t := ⟨as[n], List.getElem?_eq_getElem (by omega)⟩
    obtain ⟨xt, hxt, hrt⟩ := hL.cell hn
    have hnext : as[n + 1]? = none := List.getElem?_eq_none (by omega)
    rw [hnext] at hrt
    have htl : t < h.length := Heap.read_lt hrt
    have hta : t ≠ h.length := Nat.ne_of_lt htl
    have htail2 : l._tail = some t := by rw [hL.tail_eq hn1, hn]
    obtain ⟨c, hc0⟩ : ∃ c, l._head = some c := by
      rw [hL.head_eq]; exact ⟨as[0], List.getElem?_eq_getElem (by omega)⟩
    have hpb : push_back h l v = some
        (Heap.write (Heap.write (h ++ [some { data := v, next := none, prev := none }])
          h.length { data := v, next := none, prev := some t })
          t { data := xt, next := some h.length, prev := prev_at as n },
        { _head := l._head, _tail := some h.length, _size := l._size + 1 },
        { _node := some h.length }) := by
      simp only [push_back, Heap.alloc, _push_back, hc0, hmod, htail2, Heap.setPrev,
        Heap.setNext, Heap.read_append_new, Heap.read_write_ne (Ne.symm hta),
        Heap.read_append_left htl, hrt, Option.bind_eq_bind, Option.some_bind]
    refine ⟨_, _, hpb, ?_, rfl, by simp [Heap.write], ?_⟩
    · refine ⟨⟨hnd2, hlen2, ?_, ?_, hsz, fun _ => hlast2.symm, ?_⟩, hlast2.symm⟩
      · show l._head = _
        rw [hhead]
        exact (List.head?_append_of_ne_nil _ (by intro e; simp [e] at hn1)).symm
      · show l._size + 1 = _
        rw [hsize]; simp
      · rw [cells_linked_iff hlen2]
        intro i b x hb hx
        have hcell := (cells_linked_iff hlen).mp hc
        rcases Nat.lt_trichotomy i (n + 1) with hi | hi | hi
        · have hi1 : i < as.length := by omega
          have hb2 : as[i]? = some b := by
            rwa [List.getElem?_append_left hi1] at hb
          have hx2 : xs[i]? = some x := by
            rwa [List.getElem?_append_left (by omega)] at hx
          have hr := hcell i b x hb2 hx2
          have hbl : b < h.length := Heap.read_lt hr
          rw [prev_at_append_left hi1]
          by_cases hit : i = n
          · subst hit
            have hbt : b = t := Option.some.inj (hb2.symm.trans hn)
            subst hbt
            have hxx : x = xt := Option.some.inj (hx2.symm.trans hxt)
            subst hxx
            rw [Heap.read_write_same (by simp [Heap.write]; omega),
              List.getElem?_append_right (by omega)]
            simp [hn1]
          · have hbt : t ≠ b := by
              intro e
              subst e
              exact hit (List.getElem?_inj hi1 hnd (hb2.trans hn.symm))
            rw [Heap.read_write_ne hbt, Heap.read_write_ne (Nat.ne_of_gt hbl),
              Heap.read_append_left hbl, hr,
              List.getElem?_append_left (by omega)]
        · subst hi
          rw [List.getElem?_append_right (by omega)] at hb hx
          have hbt : b = h.length := by simpa [hn1] using hb.symm
          have hxx : x = v := by simpa [← hlen, hn1] using hx.symm
          subst hbt hxx
          rw [Heap.read_write_ne hta, Heap.read_write_same (by simp),
            List.getElem?_eq_none (by simp; omega)]
          simp [prev_at, List.getElem?_append_left, hn1, hn]
        · rw [List.getElem?_eq_none (by simp; omega)] at hb
          exact absurd hb (by simp)
    · intro b hb hbm
      have hbt : t ≠ b := fun e => hbm (e ▸ List.getElem?_mem hn)
      rw [Heap.read_write_ne hbt, Heap.read_write_ne (Nat.ne_of_gt hb),
        Heap.read_append_left hb]

theorem prev_at_cons_succ {as : List Nat} {a j : Nat} (hj : j ≠ 0) :
    prev_at (a :: as) (j + 1) = prev_at as j := by
  obtain ⟨k, rfl⟩ : ∃ k, j = k + 1 := ⟨j - 1, by omega⟩
  simp [prev_at]

/-- `push_front(v)` on a linked chain whose count can grow: it succeeds, allocates the node
at the fresh address `h.length`, links it in front of the head and leaves a well-formed
list; nodes outside the chain are untouched. -/
theorem push_front_linked {h : Heap α} {l : LinkedList} {as : List Nat} {xs : List α} (v : α)
    (hL : Linked h l as xs) (hsz : l._size + 1 < SIZE_MOD) :
    ∃ h1 l1, push_front h l v = some (h1, l1, { _node := some h.length }) ∧
      WellFormed h1 l1 (h.length :: as) (v :: xs) ∧ l1._size = l._size + 1 ∧
      h1.length = h.length + 1 ∧
      ∀ b, b < h.length → b ∉ as → Heap.read h1 b = Heap.read h b := by
  have hfresh : h.length ∉ as := fun hm => Nat.lt_irrefl _ (hL.addr_lt hm)
  obtain ⟨hnd, hlen, hhead, hsize, hlt, htail, hc⟩ := id hL
  have hmod : (l._size + 1) % SIZE_MOD = l._size + 1 := Nat.mod_eq_of_lt hsz
  have hlen2 : (h.length :: as).length = (v :: xs).length := by
    simp only [List.length_cons, hlen]
  have hnd2 : (h.length :: as).Nodup := List.nodup_cons.mpr ⟨hfresh, hnd⟩
  rcases Nat.eq_zero_or_pos as.length with h0 | hpos
  · have has : as = [] := List.length_eq_zero.mp h0
    subst has
    have hxs : xs = [] := List.length_eq_zero.mp hlen.symm
    subst hxs
    simp only [List.head?_nil] at hhead
    have hpf : push_front h l v = some (h ++ [some { data := v, next := none, prev := none }],
        { _head := some h.length, _tail := some h.length, _size := l._size + 1 },
        { _node := some h.length }) := by
      simp only [push_front, Heap.alloc, _push_front, hhead, hmod]
    simp only [List.length_nil] at hsize
    refine ⟨_, _, hpf, ?_, rfl, by simp, fun b hb _ => Heap.read_append_left hb⟩
    simp [WellFormed, Linked, cells_linked, hsize, Heap.read, prev_at, SIZE_MOD]
  · obtain ⟨c, hc0⟩ : ∃ c, as[0]? = some c := ⟨as[0], List.getElem?_eq_getElem hpos⟩
    obtain ⟨xc, hxc, hrc⟩ := hL.cell hc0
    have hcl : c < h.length := Heap.read_lt hrc
    have hca : c ≠ h.length := Nat.ne_of_lt hcl
    have hhead2 : l._head = some c := by rw [hL.head_eq, hc0]
    have hpf : push_front h l v = some
        (Heap.write (Heap.write (h ++ [some { data := v, next := none, prev := none }])
          h.length { data := v, next := some c, prev := none })
          c { data := xc, next := as[0 + 1]?, prev := some h.length },
        { _head := some h.length, _tail := l._tail, _size := l._size + 1 },
        { _node := some h.length }) := by
      simp only [push_front, Heap.alloc, _push_front, hhead2, hmod, Heap.setPrev,
        Heap.setNext, Heap.read_append_new, Heap.read_write_ne (Ne.symm hca),
        Heap.read_append_left hcl, hrc, Option.bind_eq_bind, Option.some_bind]
    have hlast : (h.length :: as).getLast? = as.getLast? := by
      obtain ⟨n, hn1⟩ : ∃ n, as.length = n + 1 := ⟨as.length - 1, by omega⟩
      rw [List.getLast?_eq_getElem?, List.getLast?_eq_getElem?]
      simp [hn1]
    have hLk : Linked (Heap.write (Heap.write
          (h ++ [some { data := v, next := none, prev := none }])
          h.length { data := v, next := some c, prev := none })
          c { data := xc, next := as[0 + 1]?, prev := some h.length })
        { _head := some h.length, _tail := l._tail, _size := l._size + 1 }
        (h.length :: as) (v :: xs) := by
      refine ⟨hnd2, hlen2, rfl, ?_, hsz, fun _ => ?_, ?_⟩
      · show l._size + 1 = _
        rw [hsize]; simp
      · show l._tail = _
        rw [hlast]; exact htail (by intro e; simp [e] at hpos)
      · rw [cells_linked_iff hlen2]
        intro i b x hb hx
        have hcell := (cells_linked_iff hlen).mp hc
        rcases i with _ | j
        · have hbt : b = h.length := by simpa using hb.symm
          have hxx : x = v := by simpa using hx.symm
          subst hbt hxx
          rw [Heap.read_write_ne hca, Heap.read_write_same (by simp)]
          simp [prev_at, hc0]
        · rw [List.getElem?_cons_succ] at hb hx
          have hr := hcell j b x hb hx
          have hbl : b < h.length := Heap.read_lt hr
          have hj1 : j < as.length := (List.getElem?_eq_some_iff.mp hb).1
          by_cases hj : j = 0
          · subst hj
            have hbc : b = c := Option.some.inj (hb.symm.trans hc0)
            subst hbc
            have hxx : x = xc := Option.some.inj (hx.symm.trans hxc)
            subst hxx
            rw [Heap.read_write_same (by simp [Heap.write]; omega)]
            simp [prev_at]
          · have hbc : c ≠ b := by
              intro e
              subst e
              exact hj (List.getElem?_inj hj1 hnd (hb.trans hc0.symm))
            rw [Heap.read_write_ne hbc, Heap.read_write_ne (Nat.ne_of_gt hbl),
              Heap.read_append_left hbl, hr, prev_at_cons_succ hj, List.getElem?_cons_succ]
    refine ⟨_, _, hpf, ⟨hLk, ?_⟩, rfl, by simp [Heap.write], ?_⟩
    · show l._tail = _
      rw [hlast]; exact htail (by intro e; simp [e] at hpos)
    · intro b hb hbm
      have hbc : c ≠ b := fun e => hbm (e ▸ List.getElem?_mem hc0)
      rw [Heap.read_write_ne hbc, Heap.read_write_ne (Nat.ne_of_gt hb),
        Heap.read_append_left hb]

/-- Walking `next` from the node at position `i` with enough fuel reads `xs` from `i` on. -/
theorem Linked.data_next_eq {h : Heap α} {l : LinkedList} {as : List Nat} {xs : List α}
    (hL : Linked h l as xs) :
    ∀ (k i fuel : Nat), i + k = as.length → k ≤ fuel → data_next h fuel as[i]? = xs.drop i := by
  intro k
  induction k with
  | zero =>
    intro i fuel hik _
    have hnone : as[i]? = none := List.getElem?_eq_none (by omega)
    have hdrop : xs.drop i = [] := List.drop_eq_nil_of_le (by rw [← hL.2.1]; omega)
    rw [hnone, hdrop]
    cases fuel <;> rfl
  | succ k ih =>
    intro i fuel hik hf
    obtain ⟨f, rfl⟩ : ∃ f, fuel = f + 1 := ⟨fuel - 1, by omega⟩
    have hi : i < as.length := by omega
    have ha : as[i]? = some as[i] := List.getElem?_eq_getElem hi
    obtain ⟨x, hx, hr⟩ := hL.cell ha
    obtain ⟨hi2, hxi⟩ := List.getElem?_eq_some_iff.mp hx
    rw [ha, List.drop_eq_getElem_cons hi2, hxi]
    simp only [data_next, hr]
    rw [ih (i + 1) f (by omega) (by omega)]

/-- Walking `next` from the node at position `i` with enough fuel visits `as` from `i` on. -/
theorem Linked.nodes_next_eq {h : Heap α} {l : LinkedList} {as : List Nat} {xs : List α}
    (hL : Linked h l as xs) :
    ∀ (k i fuel : Nat), i + k = as.length → k ≤ fuel → nodes_next h fuel as[i]? = as.drop i := by
  intro k
  induction k with
  | zero =>
    intro i fuel hik _
    have hnone : as[i]? = none := List.getElem?_eq_none (by omega)
    have hdrop : as.drop i = [] := List.drop_eq_nil_of_le (by omega)
    rw [hnone, hdrop]
    cases fuel <;> rfl
  | succ k ih =>
    intro i fuel hik hf
    obtain ⟨f, rfl⟩ : ∃ f, fuel = f + 1 := ⟨fuel - 1, by omega⟩
    have hi : i < as.length := by omega
    have ha : as[i]? = some as[i] := List.getElem?_eq_getElem hi
    obtain ⟨x, hx, hr⟩ := hL.cell ha
    rw [ha, List.drop_eq_getElem_cons hi]
    simp only [nodes_next, hr]
    rw [ih (i + 1) f (by omega) (by omega)]

/-- Walking `prev` from the node at position `i` with enough fuel visits positions `i`, ..., `0`. -/
theorem Linked.nodes_prev_eq {h : Heap α} {l : LinkedList} {as : List Nat} {xs : List α}
    (hL : Linked h l as xs) :
    ∀ (i fuel : Nat), i < as.length → i < fuel →
      nodes_prev h fuel as[i]? = (as.take (i + 1)).reverse := by
  intro i
  induction i with
  | zero =>
    intro fuel hi hf
    obtain ⟨f, rfl⟩ : ∃ f, fuel = f + 1 := ⟨fuel - 1, by omega⟩
    have ha : as[0]? = some as[0] := List.getElem?_eq_getElem hi
    obtain ⟨x, hx, hr⟩ := hL.cell ha
    rw [ha]
    simp only [nodes_prev, hr, prev_at, if_true]
    cases as with
    | nil => simp at hi
    | cons a t => cases f <;> simp [nodes_prev]
  | succ i ih =>
    intro fuel hi hf
    obtain ⟨f, rfl⟩ : ∃ f, fuel = f + 1 := ⟨fuel - 1, by omega⟩
    have ha : as[i + 1]? = some as[i + 1] := List.getElem?_eq_getElem hi
    obtain ⟨x, hx, hr⟩ := hL.cell ha
    rw [ha]
    simp only [nodes_prev, hr, prev_at, Nat.add_sub_cancel, Nat.succ_ne_zero, if_false]
    rw [ih f (by omega) (by omega)]
    have ht : as.take (i + 1 + 1) = as.take (i + 1) ++ [as[i + 1]] := by
      rw [List.take_succ, ha]; rfl
    rw [ht, List.reverse_append]; rfl

/-- Walking `next` from `_head` visits exactly the chain, in order. -/
theorem Linked.nodes_next_head {h : Heap α} {l : LinkedList} {as : List Nat} {xs : List α}
    (hL : Linked h l as xs) : nodes_next h (h.length + 1) l._head = as := by
  rw [hL.head_eq, hL.nodes_next_eq as.length 0 _ (by omega) (by have := hL.length_le; omega)]
  rfl

/-- Walking `prev` from `_tail` of a well-formed list visits exactly the chain, in reverse. -/
theorem WellFormed.nodes_prev_tail {h : Heap α} {l : LinkedList} {as : List Nat}
    {xs : List α} (hW : WellFormed h l as xs) :
    nodes_prev h (h.length + 1) l._tail = as.reverse := by
  rcases Nat.eq_zero_or_pos as.length with h0 | hpos
  · have has : as = [] := List.length_eq_zero.mp h0
    subst has
    rw [hW.2]; rfl
  · obtain ⟨n, hn1⟩ : ∃ n, as.length = n + 1 := ⟨as.length - 1, by omega⟩
    have hle := hW.1.length_le
    rw [hW.1.tail_eq hn1, hW.1.nodes_prev_eq n _ (by omega) (by omega), ← hn1, List.take_length]

/-- The head-to-tail element sequence of a linked chain is `xs`. -/
theorem Linked.to_list_eq {h : Heap α} {l : LinkedList} {as : List Nat} {xs : List α}
    (hL : Linked h l as xs) : to_list h l = xs := by
  unfold to_list
  rw [hL.head_eq, hL.data_next_eq as.length 0 _ (by omega) (by have := hL.length_le; omega)]
  rfl

/-- The first unlinking statement of `_erase`: the successor, if any, gets the node's `prev`. -/
theorem erase_unlink_next_spec {h : Heap α} {a : Nat} {n : Node α}
    (hr : Heap.read h a = some n) (hn : ∀ b, n.next = some b → ∃ m, Heap.read h b = some m) :
    ∃ h1, _erase_unlink_next h (some a) = some h1 ∧ h1.length = h.length ∧
      ∀ c, Heap.read h1 c =
        if n.next = some c then (Heap.read h c).map (fun m => { m with prev := n.prev })
        else Heap.read h c := by
  cases hnx : n.next with
  | none =>
    refine ⟨h, ?_, rfl, fun c => by simp⟩
    simp [_erase_unlink_next, Heap.getNext, hr, hnx]
  | some b =>
    obtain ⟨m, hm⟩ := hn b hnx
    refine ⟨Heap.write h b { m with prev := n.prev }, ?_, Heap.length_write, fun c => ?_⟩
    · simp [_erase_unlink_next, Heap.getNext, Heap.getPrev, hr, hnx, Heap.setPrev, hm]
    · rw [Heap.read_write (Heap.read_lt hm)]
      by_cases hbc : b = c
      · subst hbc; simp [hm]
      · simp [hbc]

/-- The second unlinking statement of `_erase`: the predecessor, if any, gets the node's
`next`. -/
theorem erase_unlink_prev_spec {h : Heap α} {a : Nat} {n : Node α}
    (hr : Heap.read h a = some n) (hp : ∀ b, n.prev = some b → ∃ m, Heap.read h b = some m) :
    ∃ h1, _erase_unlink_prev h (some a) = some h1 ∧ h1.length = h.length ∧
      ∀ c, Heap.read h1 c =
        if n.prev = some c then (Heap.read h c).map (fun m => { m with next := n.next })
        else Heap.read h c := by
  cases hpv : n.prev with
  | none =>
    refine ⟨h, ?_, rfl, fun c => by simp⟩
    simp [_erase_unlink_prev, Heap.getPrev, hr, hpv]
  | some b =>
    obtain ⟨m, hm⟩ := hp b hpv
    refine ⟨Heap.write h b { m with next := n.next }, ?_, Heap.length_write, fun c => ?_⟩
    · simp [_erase_unlink_prev, Heap.getNext, Heap.getPrev, hr, hpv, Heap.setNext, hm]
    · rw [Heap.read_write (Heap.read_lt hm)]
      by_cases hbc : b = c
      · subst hbc; simp [hm]
      · simp [hbc]

theorem prev_at_eq_some_iff {as : List Nat} (hnd : as.Nodup) {j k c : Nat}
    (hj : as[j]? = some c) : prev_at as k = some c ↔ j + 1 = k := by
  have hj1 : j < as.length := (List.getElem?_eq_some_iff.mp hj).1
  unfold prev_at
  constructor
  · intro hp
    split at hp
    · exact absurd hp (by simp)
    · have := List.getElem?_inj hj1 hnd (hj.trans hp.symm)
      omega
  · intro hk
    subst hk
    simpa using hj

theorem next_eq_some_iff {as : List Nat} (hnd : as.Nodup) {j k c : Nat}
    (hj : as[j]? = some c) : as[k + 1]? = some c ↔ j = k + 1 := by
  have hj1 : j < as.length := (List.getElem?_eq_some_iff.mp hj).1
  constructor
  · intro hp
    exact List.getElem?_inj hj1 hnd (hj.trans hp.symm)
  · intro hk
    subst hk
    exact hj

/-- The nodes of a chain, other than the one at position `k`, after the two unlinking
statements of `_erase` for position `k`. -/
theorem Linked.read_after_erase {h h1 h2 : Heap α} {l : LinkedList} {as : List Nat}
    {xs : List α} (hL : Linked h l as xs) {k : Nat}
    (hr1 : ∀ c, Heap.read h1 c =
        if as[k + 1]? = some c then (Heap.read h c).map (fun m => { m with prev := prev_at as k })
        else Heap.read h c)
    (hr2 : ∀ c, Heap.read h2 c =
        if prev_at as k = some c then (Heap.read h1 c).map (fun m => { m with next := as[k + 1]? })
        else Heap.read h1 c)
    {j c : Nat} (hj : as[j]? = some c) :
    ∃ x, xs[j]? = some x ∧ Heap.read h2 c = some
      { data := x, next := if j + 1 = k then as[k + 1]? else as[j + 1]?,
        prev := if j = k + 1 then prev_at as k else prev_at as j } := by
  obtain ⟨x, hx, hr⟩ := hL.cell hj
  refine ⟨x, hx, ?_⟩
  have hnd := hL.1
  rw [hr2, hr1, hr]
  by_cases hp : j + 1 = k
  · have hn : ¬ j = k + 1 := by omega
    rw [if_pos ((prev_at_eq_some_iff hnd hj).mpr hp),
      if_neg (fun e => hn ((next_eq_some_iff hnd hj).mp e)), if_pos hp, if_neg hn]
    rfl
  · rw [if_neg (fun e => hp ((prev_at_eq_some_iff hnd hj).mp e)), if_neg hp]
    by_cases hn : j = k + 1
    · rw [if_pos ((next_eq_some_iff hnd hj).mpr hn), if_pos hn]
      rfl
    · rw [if_neg (fun e => hn ((next_eq_some_iff hnd hj).mp e)), if_neg hn]

theorem prev_at_eraseIdx (as : List Nat) (k i : Nat) :
    prev_at (as.eraseIdx k) i = if i ≤ k then prev_at as i else prev_at as (i + 1) := by
  unfold prev_at
  by_cases hi0 : i = 0
  · subst hi0; simp
  · rw [if_neg hi0, List.getElem?_eraseIdx]
    by_cases hik : i ≤ k
    · rw [if_pos hik, if_neg hi0, if_pos (by omega)]
    · rw [if_neg hik, if_neg (by omega), if_neg (by omega), Nat.sub_add_cancel (by omega)]
      rfl

/-- `_erase(node)` for the node at position `k` of a linked chain: it succeeds, returns the
successor, deletes the node and leaves the chain without position `k` linked, with the
count one less.  `_tail` is the last node of the result unless the chain had one node
only: then `_head` becomes null and `_tail` is left as it was. -/
theorem erase_node_linked {h : Heap α} {l : LinkedList} {as : List Nat} {xs : List α}
    (hL : Linked h l as xs) {k a : Nat} (ha : as[k]? = some a) :
    ∃ h1 l1, _erase h l (some a) = some (h1, l1, { _node := as[k + 1]? }) ∧
      Linked h1 l1 (as.eraseIdx k) (xs.eraseIdx k) ∧ l1._size + 1 = l._size ∧
      (as.length ≠ 1 → l1._tail = (as.eraseIdx k).getLast?) ∧
      (as.length = 1 → l1._head = none ∧ l1._tail = l._tail) ∧
      h1.length = h.length ∧ Heap.read h1 a = none ∧
      ∀ b, b ∉ as → Heap.read h1 b = Heap.read h b := by
  obtain ⟨hnd, hlen, hhead, hsize, hlt, htail, hc⟩ := id hL
  have hk : k < as.length := (List.getElem?_eq_some_iff.mp ha).1
  obtain ⟨n, hn1⟩ : ∃ n, as.length = n + 1 := ⟨as.length - 1, by omega⟩
  obtain ⟨x, hx, hra⟩ := hL.cell ha
  -- `if (node->next) node->next->prev = node->prev;`
  obtain ⟨h1, hs1, hl1, hr1⟩ := erase_unlink_next_spec hra (by
    intro b hb
    obtain ⟨y, _, hrb⟩ := hL.cell hb
    exact ⟨_, hrb⟩)
  simp only [] at hr1
  have hne1 : as[k + 1]? ≠ some a := fun e => by
    have := List.getElem?_inj hk hnd (ha.trans e.symm); omega
  have hr1a : Heap.read h1 a = some { data := x, next := as[k + 1]?, prev := prev_at as k } := by
    rw [hr1, if_neg hne1, hra]
  -- `if (node->prev) node->prev->next = node->next;`
  obtain ⟨h2, hs2, hl2, hr2⟩ := erase_unlink_prev_spec hr1a (by
    intro b hb
    have hb' : prev_at as k = some b := hb
    obtain ⟨j, hj⟩ : ∃ j, as[j]? = some b := by
      unfold prev_at at hb'
      split at hb'
      · exact absurd hb' (by simp)
      · exact ⟨_, hb'⟩
    obtain ⟨y, _, hrb⟩ := hL.cell hj
    rw [hr1, hrb]
    split
    · exact ⟨_, rfl⟩
    · exact ⟨_, rfl⟩)
  simp only [] at hr2
  have hne2 : prev_at as k ≠ some a := fun e => by
    have := (prev_at_eq_some_iff hnd ha).mp e; omega
  have hr2a : Heap.read h2 a = some { data := x, next := as[k + 1]?, prev := prev_at as k } := by
    rw [hr2, if_neg hne2, hr1a]
  -- the ends
  have hhead0 : l._head = as[0]? := hL.head_eq
  have htail0 : l._tail = as[n]? := hL.tail_eq hn1
  have hends : _erase_ends h2 l (some a) = some
      (if k = 0 then { _head := as[k + 1]?, _tail := l._tail, _size := l._size }
       else if k = n then { _head := l._head, _tail := prev_at as k, _size := l._size }
       else l) := by
    unfold _erase_ends
    by_cases hk0 : k = 0
    · have hh : some a = l._head := by rw [hhead0, ← ha, hk0]
      rw [if_pos hh, if_pos hk0]
      simp only [Heap.getNext, hr2a, Option.map_some', Option.bind_eq_bind, Option.some_bind]
    · have hnh : ¬ some a = l._head := by
        rw [hhead0]; intro e
        exact hk0 (List.getElem?_inj hk hnd (ha.trans e))
      rw [if_neg hnh, if_neg hk0]
      by_cases hkn : k = n
      · have ht : some a = l._tail := by rw [htail0, ← ha, hkn]
        rw [if_pos ht, if_pos hkn]
        simp only [Heap.getPrev, hr2a, Option.map_some', Option.bind_eq_bind, Option.some_bind]
      · have hnt : ¬ some a = l._tail := by
          rw [htail0]; intro e
          exact hkn (List.getElem?_inj hk hnd (ha.trans e))
        rw [if_neg hnt, if_neg hkn]
  have hfree : Heap.free h2 (some a) = some (h2.set a none) := Heap.free_eq hr2a
  have hgn : Heap.getNext h (some a) = some as[k + 1]? := by
    simp only [Heap.getNext, hra, Option.map_some']
  have hmpos : 0 < SIZE_MOD := by decide
  have hmod : (l._size + (SIZE_MOD - 1)) % SIZE_MOD = l._size - 1 := by
    have e : l._size + (SIZE_MOD - 1) = (l._size - 1) + SIZE_MOD := by omega
    rw [e, Nat.add_mod_right, Nat.mod_eq_of_lt (by omega)]
  have herase : _erase h l (some a) = some (h2.set a none,
      { _head := if k = 0 then as[k + 1]? else l._head,
        _tail := if k = 0 then l._tail else if k = n then prev_at as k else l._tail,
        _size := l._size - 1 }, { _node := as[k + 1]? }) := by
    simp only [_erase, hgn, hs1, hs2, hends, hfree, Option.bind_eq_bind, Option.some_bind]
    by_cases hk0 : k = 0
    · simp only [if_pos hk0, hmod]
    · by_cases hkn : k = n
      · simp only [if_neg hk0, if_pos hkn, hmod]
      · simp only [if_neg hk0, if_neg hkn, hmod]
  have hlen' : (as.eraseIdx k).length = n := by
    rw [List.length_eraseIdx_of_lt hk, hn1]; rfl
  have hlenx' : (xs.eraseIdx k).length = n := by
    rw [List.length_eraseIdx_of_lt (hlen ▸ hk), ← hlen, hn1]; rfl
  have hreadne : ∀ c, c ≠ a → Heap.read (h2.set a none) c = Heap.read h2 c := by
    intro c hca
    rw [Heap.read_set_none, if_neg (Ne.symm hca)]
  have htail' : as.eraseIdx k ≠ [] →
      (if k = 0 then l._tail else if k = n then prev_at as k else l._tail) =
        (as.eraseIdx k).getLast? := by
    intro hne
    have hn0 : n ≠ 0 := by
      intro e; rw [e] at hlen'
      exact hne (List.length_eq_zero.mp hlen')
    rw [List.getLast?_eq_getElem?, hlen', List.getElem?_eraseIdx, htail0]
    by_cases hk0 : k = 0
    · rw [if_pos hk0, if_neg (by omega), Nat.sub_add_cancel (by omega)]
    · rw [if_neg hk0]
      by_cases hkn : k = n
      · rw [if_pos hkn, if_pos (by omega)]
        unfold prev_at
        rw [if_neg hk0, hkn]
      · rw [if_neg hkn, if_neg (by omega), Nat.sub_add_cancel (by omega)]
  refine ⟨_, _, herase, ⟨hnd.sublist (List.eraseIdx_sublist as k), hlen'.trans hlenx'.symm,
    ?_, ?_, ?_, htail', ?_⟩, ?_, ?_, ?_, ?_, ?_, ?_⟩
  · show (if k = 0 then as[k + 1]? else l._head) = _
    rw [List.head?_eq_getElem?, List.getElem?_eraseIdx]
    by_cases hk0 : k = 0
    · subst hk0; simp
    · rw [if_neg hk0, if_pos (by omega), hhead0]
  · show l._size - 1 = _
    rw [hlen', hsize, hn1]; rfl
  · show l._size - 1 < SIZE_MOD
    omega
  · rw [cells_linked_iff (hlen'.trans hlenx'.symm)]
    intro i c y hci hyi
    rw [List.getElem?_eraseIdx] at hci hyi
    rw [List.getElem?_eraseIdx, prev_at_eraseIdx]
    by_cases hik : i < k
    · rw [if_pos hik] at hci hyi
      obtain ⟨x', hx', hr'⟩ := hL.read_after_erase hr1 hr2 hci
      have hxy : x' = y := Option.some.inj (hx'.symm.trans hyi)
      have hca : c ≠ a := by
        intro e; subst e
        have := List.getElem?_inj hk hnd (ha.trans hci.symm); omega
      rw [hreadne c hca, hr', hxy, if_neg (show ¬ i = k + 1 by omega),
        if_pos (show i ≤ k by omega)]
      by_cases hik1 : i + 1 = k
      · rw [if_pos hik1, if_neg (show ¬ i + 1 < k by omega), hik1]
      · rw [if_neg hik1, if_pos (show i + 1 < k by omega)]
    · rw [if_neg hik] at hci hyi
      obtain ⟨x', hx', hr'⟩ := hL.read_after_erase hr1 hr2 hci
      have hxy : x' = y := Option.some.inj (hx'.symm.trans hyi)
      have hca : c ≠ a := by
        intro e; subst e
        have := List.getElem?_inj hk hnd (ha.trans hci.symm); omega
      rw [hreadne c hca, hr', hxy, if_neg (show ¬ i + 1 + 1 = k by omega),
        if_neg (show ¬ i + 1 < k by omega)]
      by_cases hik1 : i = k
      · rw [if_pos (show i + 1 = k + 1 by omega), if_pos (show i ≤ k by omega), hik1]
      · rw [if_neg (show ¬ i + 1 = k + 1 by omega), if_neg (show ¬ i ≤ k by omega)]
  · show l._size - 1 + 1 = l._size
    omega
  · intro hne
    have hne' : as.eraseIdx k ≠ [] := by
      intro e; rw [e] at hlen'
      have : n = 0 := hlen'.symm
      omega
    exact htail' hne'
  · intro h1
    have hn0 : n = 0 := by omega
    have hk0 : k = 0 := by omega
    refine ⟨?_, ?_⟩
    · show (if k = 0 then as[k + 1]? else l._head) = none
      rw [if_pos hk0]
      exact List.getElem?_eq_none (by omega)
    · show (if k = 0 then l._tail else if k = n then prev_at as k else l._tail) = l._tail
      rw [if_pos hk0]
  · rw [List.length_set, hl2, hl1]
  · rw [Heap.read_set_none, if_pos rfl]
  · intro b hb
    have hba : b ≠ a := fun e => hb (e ▸ List.getElem?_mem ha)
    rw [hreadne b hba, hr2, hr1]
    have h1 : ¬ prev_at as k = some b := by
      intro e
      unfold prev_at at e
      split at e
      · exact absurd e (by simp)
      · exact hb (List.getElem?_mem e)
    have h2 : ¬ as[k + 1]? = some b := fun e => hb (List.getElem?_mem e)
    rw [if_neg h1, if_neg h2]

/-- `erase(cursor)` for the cursor of the node at position `k` of a linked chain: the element
at position `k` is removed, the others keep their order, the count drops by one and the
cursor of the successor is returned.  The result is well formed when the chain had more
than one node; after erasing the only node `_tail` still holds the deleted address. -/
theorem erase_linked {h : Heap α} {l : LinkedList} {as : List Nat} {xs : List α}
    (hL : Linked h l as xs) {k a : Nat} (ha : as[k]? = some a) :
    ∃ h1 l1, erase h l { _node := some a } = some (h1, l1, { _node := as[k + 1]? }) ∧
      Linked h1 l1 (as.eraseIdx k) (xs.eraseIdx k) ∧ to_list h1 l1 = xs.eraseIdx k ∧
      l1._size + 1 = l._size ∧
      (as.length ≠ 1 → WellFormed h1 l1 (as.eraseIdx k) (xs.eraseIdx k)) ∧
      (as.length = 1 → l1._head = none ∧ l1._tail = some a ∧ Heap.read h1 a = none) := by
  obtain ⟨h1, l1, he, hL1, hs, ht, hsole, _, hdead, _⟩ := erase_node_linked hL ha
  refine ⟨h1, l1, he, hL1, hL1.to_list_eq, hs, fun hne => ⟨hL1, ht hne⟩, fun h1len => ?_⟩
  obtain ⟨hh, htl⟩ := hsole h1len
  have hk : k < as.length := (List.getElem?_eq_some_iff.mp ha).1
  have hk0 : k = 0 := by omega
  refine ⟨hh, ?_, hdead⟩
  rw [htl, hL.tail_eq (n := 0) h1len, ← hk0, ha]

/-- With `index > 0` the loop of `get_iterator(Offset)` runs to the end of a linked chain. -/
theorem Linked.get_iterator_loop_end {h : Heap α} {l : LinkedList} {as : List Nat}
    {xs : List α} (hL : Linked h l as xs) {index : Nat} (hidx : 0 < index) :
    ∀ (k i fuel : Nat), i + k = as.length → k < fuel →
      get_iterator_loop h index fuel as[i]? = some none := by
  intro k
  induction k with
  | zero =>
    intro i fuel hik hf
    obtain ⟨f, rfl⟩ : ∃ f, fuel = f + 1 := ⟨fuel - 1, by omega⟩
    rw [List.getElem?_eq_none (by omega)]
    rfl
  | succ k ih =>
    intro i fuel hik hf
    obtain ⟨f, rfl⟩ : ∃ f, fuel = f + 1 := ⟨fuel - 1, by omega⟩
    have ha : as[i]? = some as[i] := List.getElem?_eq_getElem (by omega)
    obtain ⟨x, _, hr⟩ := hL.cell ha
    rw [ha]
    simp only [get_iterator_loop, hidx, if_true, Heap.getNext, hr, Option.map_some',
      Option.bind_eq_bind, Option.some_bind]
    exact ih (i + 1) f (by omega) (by omega)

/-- `get_iterator(index)` on a linked chain terminates and returns `begin()` for index 0 and
the end cursor for every other index. -/
theorem get_iterator_offset_linked {h : Heap α} {l : LinkedList} {as : List Nat}
    {xs : List α} (hL : Linked h l as xs) (index : Nat) :
    get_iterator_offset h l index =
      some (if index = 0 then { _node := l._head } else «end») := by
  unfold get_iterator_offset
  by_cases hi : index = 0
  · subst hi
    rw [if_pos rfl]
    cases hh : l._head <;> simp [get_iterator_loop]
  · rw [if_neg hi, hL.head_eq,
      hL.get_iterator_loop_end (Nat.pos_of_ne_zero hi) as.length 0 _ (by omega)
        (by have := hL.length_le; omega)]
    rfl

/-- On a linked chain `erase(index)` with `index > 0` changes nothing and returns end, and
`at(index)` dereferences the end cursor. -/
theorem erase_offset_linked {h : Heap α} {l : LinkedList} {as : List Nat}
    {xs : List α} (hL : Linked h l as xs) {index : Nat} (hidx : 0 < index) :
    erase_offset h l index = some (h, l, «end») ∧ «at» h l index = none := by
  have hg := get_iterator_offset_linked hL index
  rw [if_neg (by omega)] at hg
  constructor
  · simp only [erase_offset, hg, Option.bind_eq_bind, Option.some_bind]
    rfl
  · simp only [«at», hg, Option.bind_eq_bind, Option.some_bind]
    rfl

theorem prev_at_append_right {as bs : List Nat} {i : Nat} (hi : as.length < i) :
    prev_at (as ++ bs) i = prev_at bs (i - as.length) := by
  unfold prev_at
  rw [if_neg (by omega), if_neg (by omega), List.getElem?_append_right (by omega)]
  congr 1
  omega

/-- The move form `A += std::move(B)` for a non-empty linked chain `A` and a linked chain `B`
sharing no node with `A` (counts adding up within `Size`): it succeeds, `A` becomes the
well-formed list of `A`'s nodes followed by `B`'s, `B` becomes the empty list, nodes of
neither chain are untouched. -/
theorem operator_add_assign_move_linked {h : Heap α} {a b : LinkedList} {as bs : List Nat}
    {xs ys : List α} (hA : Linked h a as xs) (hB : Linked h b bs ys)
    (hdisj : ∀ c, c ∈ as → c ∉ bs) (hne : as ≠ []) (hsz : a._size + b._size < SIZE_MOD) :
    ∃ h1 a1, operator_add_assign_move h a b = some (h1, a1, empty_list) ∧
      WellFormed h1 a1 (as ++ bs) (xs ++ ys) ∧ a1._size = a._size + b._size ∧
      h1.length = h.length ∧
      ∀ c, c ∉ as → c ∉ bs → Heap.read h1 c = Heap.read h c := by
  obtain ⟨hndA, hlenA, _, hsizeA, _, _, hcA⟩ := id hA
  obtain ⟨hndB, hlenB, _, hsizeB, _, htailB, hcB⟩ := id hB
  have hmod : (a._size + b._size) % SIZE_MOD = a._size + b._size := Nat.mod_eq_of_lt hsz
  obtain ⟨n, hn1⟩ : ∃ n, as.length = n + 1 :=
    ⟨as.length - 1, by have := List.length_pos.mpr hne; omega⟩
  obtain ⟨t, hn⟩ : ∃ t, as[n]? = some t := ⟨as[n], List.getElem?_eq_getElem (by omega)⟩
  obtain ⟨xt, hxt, hrt⟩ := hA.cell hn
  rw [List.getElem?_eq_none (show as.length ≤ n + 1 by omega)] at hrt
  have htl : t < h.length := Heap.read_lt hrt
  have htailA : a._tail = some t := by rw [hA.tail_eq hn1, hn]
  have hheadB : b._head = bs[0]? := hB.head_eq
  have hlen2 : (as ++ bs).length = (xs ++ ys).length := by
    simp only [List.length_append, hlenA, hlenB]
  have hnd2 : (as ++ bs).Nodup := List.Nodup.append hndA hndB (fun c hc => hdisj c hc)
  have hhead2 : a._head = (as ++ bs).head? := by
    rw [hA.2.2.1]; exact (List.head?_append_of_ne_nil _ hne).symm
  have hcellA := (cells_linked_iff hlenA).mp hcA
  have hcellB := (cells_linked_iff hlenB).mp hcB
  rcases Nat.eq_zero_or_pos bs.length with h0 | hpos
  · have hbs : bs = [] := List.length_eq_zero.mp h0
    subst hbs
    have hys : ys = [] := List.length_eq_zero.mp hlenB.symm
    subst hys
    have hb0 : b._head = none := hheadB
    have hbsz : b._size = 0 := hsizeB
    have hop : operator_add_assign_move h a b = some
        (Heap.write h t { data := xt, next := none, prev := prev_at as n },
         { _head := a._head, _tail := a._tail, _size := a._size + b._size }, empty_list) := by
      simp only [operator_add_assign_move, htailA, hb0, Heap.setNext, hrt, hmod,
        Option.bind_eq_bind, Option.some_bind]
      rfl
    have hsame : ∀ c, Heap.read (Heap.write h t
        { data := xt, next := none, prev := prev_at as n }) c = Heap.read h c := by
      intro c
      rw [Heap.read_write htl]
      split
      · next e => rw [← e, hrt]
      · rfl
    refine ⟨_, _, hop, ?_, rfl, Heap.length_write, fun c _ _ => hsame c⟩
    simp only [List.append_nil]
    have htl2 : a._tail = as.getLast? := hA.2.2.2.2.2.1 hne
    refine ⟨⟨hndA, hlenA, hA.2.2.1, ?_, by rw [hbsz]; exact hA.2.2.2.2.1, fun _ => htl2, ?_⟩,
      htl2⟩
    · show a._size + b._size = _
      rw [hbsz, hsizeA]; rfl
    · rw [cells_linked_iff hlenA]
      intro i c x hc hx
      rw [hsame]
      exact hcellA i c x hc hx
  · obtain ⟨c0, hc0⟩ : ∃ c0, bs[0]? = some c0 := ⟨bs[0], List.getElem?_eq_getElem hpos⟩
    obtain ⟨y0, hy0, hr0⟩ := hB.cell hc0
    have hp0 : prev_at bs 0 = none := rfl
    rw [hp0] at hr0
    have hc0l : c0 < h.length := Heap.read_lt hr0
    have hc0t : t ≠ c0 := by
      intro e
      exact hdisj t (List.getElem?_mem hn) (e ▸ List.getElem?_mem hc0)
    have hb0 : b._head = some c0 := by rw [hheadB, hc0]
    have hbne : bs ≠ [] := by intro e; rw [e] at hpos; exact Nat.lt_irrefl _ hpos
    have hlast2 : b._tail = (as ++ bs).getLast? := by
      rw [htailB hbne, List.getLast?_append_of_ne_nil _ hbne]
    have hop : operator_add_assign_move h a b = some
        (Heap.write (Heap.write h t { data := xt, next := some c0, prev := prev_at as n })
          c0 { data := y0, next := bs[0 + 1]?, prev := some t },
         { _head := a._head, _tail := b._tail, _size := a._size + b._size }, empty_list) := by
      simp only [operator_add_assign_move, htailA, hb0, Heap.setNext, Heap.setPrev, hrt, hmod,
        Heap.read_write_ne hc0t, hr0, Option.bind_eq_bind, Option.some_bind]
      rfl
    refine ⟨_, _, hop, ⟨⟨hnd2, hlen2, hhead2, ?_, hsz, fun _ => hlast2, ?_⟩, hlast2⟩, rfl,
      by simp [Heap.write], ?_⟩
    · show a._size + b._size = _
      rw [hsizeA, hsizeB, List.length_append]
    · rw [cells_linked_iff hlen2]
      intro i c z hci hzi
      by_cases hi : i < as.length
      · rw [List.getElem?_append_left hi] at hci
        rw [List.getElem?_append_left (hlenA ▸ hi)] at hzi
        have hr := hcellA i c z hci hzi
        have hcc0 : c0 ≠ c := by
          intro e
          exact hdisj c (List.getElem?_mem hci) (e ▸ List.getElem?_mem hc0)
        rw [Heap.read_write_ne hcc0, Heap.read_write htl, prev_at_append_left hi]
        by_cases hin : i = n
        · subst hin
          have hct : t = c := Option.some.inj (hn.symm.trans hci)
          have hzx : xt = z := Option.some.inj (hxt.symm.trans hzi)
          rw [if_pos hct, List.getElem?_append_right (by omega), hzx]
          simp [hn1, hc0]
        · have hct : ¬ t = c := by
            intro e
            exact hin (List.getElem?_inj hi hndA (hci.trans (e ▸ hn.symm)))
          rw [if_neg hct, hr, List.getElem?_append_left (by omega)]
      · have hi' : as.length ≤ i := by omega
        rw [List.getElem?_append_right hi'] at hci
        rw [List.getElem?_append_right (hlenA ▸ hi'), ← hlenA] at hzi
        have hr := hcellB (i - as.length) c z hci hzi
        have hct : t ≠ c := by
          intro e
          exact hdisj t (List.getElem?_mem hn) (e ▸ List.getElem?_mem hci)
        have hnext : (as ++ bs)[i + 1]? = bs[i - as.length + 1]? := by
          rw [List.getElem?_append_right (by omega)]
          congr 1; omega
        rw [hnext]
        by_cases hij : i = as.length
        · have hcc0 : c0 = c := by
            rw [hij, Nat.sub_self] at hci
            exact Option.some.inj (hc0.symm.trans hci)
          have hzy : y0 = z := by
            rw [hij, Nat.sub_self] at hzi
            exact Option.some.inj (hy0.symm.trans hzi)
          rw [← hcc0, Heap.read_write_same (by simp [Heap.write]; exact hc0l), hzy, hij,
            Nat.sub_self]
          simp [prev_at, hn1, List.getElem?_append_left, hn]
        · have hcc0 : c0 ≠ c := by
            intro e
            have := List.getElem?_inj hpos hndB (hc0.trans (e ▸ hci.symm))
            omega
          rw [Heap.read_write_ne hcc0, Heap.read_write_ne hct, hr,
            prev_at_append_right (by omega)]
    · intro c hca hcb
      have h1 : c0 ≠ c := fun e => hcb (e ▸ List.getElem?_mem hc0)
      have h2 : t ≠ c := fun e => hca (e ▸ List.getElem?_mem hn)
      rw [Heap.read_write_ne h1, Heap.read_write_ne h2]

/-- A linked chain stays linked in every heap that agrees with the old one on its nodes. -/
theorem Linked.frame {h h1 : Heap α} {l : LinkedList} {as : List Nat} {xs : List α}
    (hL : Linked h l as xs) (hf : ∀ a, a ∈ as → Heap.read h1 a = Heap.read h a) :
    Linked h1 l as xs := by
  obtain ⟨hnd, hlen, hhead, hsize, hlt, htail, hc⟩ := hL
  refine ⟨hnd, hlen, hhead, hsize, hlt, htail, ?_⟩
  rw [cells_linked_iff hlen] at hc ⊢
  intro i a x ha hx
  rw [hf a (List.getElem?_mem ha)]
  exact hc i a x ha hx

/-- A well-formed list stays well formed in every heap that agrees with the old one on its
nodes. -/
theorem WellFormed.of_frame {h h1 : Heap α} {l : LinkedList} {as : List Nat} {xs : List α}
    (hW : WellFormed h l as xs) (hf : ∀ a, a ∈ as → Heap.read h1 a = Heap.read h a) :
    WellFormed h1 l as xs :=
  ⟨hW.1.frame hf, hW.2⟩

/-- Walking a linked chain for an element address that no node of the chain has reaches
`return end();`, which returns nothing: the lookup has no result, whatever the fuel. -/
theorem Linked.get_iterator_ptr_loop_absent {h : Heap α} {l : LinkedList} {as : List Nat}
    {xs : List α} (hL : Linked h l as xs) {p : ElemPtr}
    (hp : ∀ a, a ∈ as → ElemPtr.data_of a ≠ p) :
    ∀ (k i fuel : Nat), i + k = as.length →
      get_iterator_ptr_loop h p fuel as[i]? = none := by
  intro k
  induction k with
  | zero =>
    intro i fuel hik
    cases fuel with
    | zero => rfl
    | succ f =>
      rw [List.getElem?_eq_none (by omega)]
      rfl
  | succ k ih =>
    intro i fuel hik
    cases fuel with
    | zero => rfl
    | succ f =>
      have ha : as[i]? = some as[i] := List.getElem?_eq_getElem (by omega)
      obtain ⟨x, _, hr⟩ := hL.cell ha
      rw [ha]
      simp only [get_iterator_ptr_loop, if_neg (hp _ (List.getElem?_mem ha)), Heap.getNext, hr,
        Option.map_some', Option.bind_eq_bind, Option.some_bind]
      exact ih (i + 1) f (by omega)

/-- The loop of `clear(onDestroyAction)` started on the node at position `i` of a chain whose
nodes from `i` on are alive and linked by `next`: it calls the callback on the elements from
position `i` on, in order, deletes these nodes and touches no other cell. -/
theorem clear_loop_chain {σ : Type} (f : σ → α → σ) {as : List Nat} {xs : List α}
    (hnd : as.Nodup) (hlen : as.length = xs.length) :
    ∀ (k i fuel : Nat) (h : Heap α) (s : σ), i + k = as.length → k < fuel →
      (∀ j a, i ≤ j → as[j]? = some a →
        ∃ x pv, xs[j]? = some x ∧
          Heap.read h a = some { data := x, next := as[j + 1]?, prev := pv }) →
      ∃ h1, clear_loop f fuel h s as[i]? = some (h1, (xs.drop i).foldl f s) ∧
        h1.length = h.length ∧
        (∀ j a, i ≤ j → as[j]? = some a → Heap.read h1 a = none) ∧
        (∀ b, (∀ j, i ≤ j → as[j]? ≠ some b) → Heap.read h1 b = Heap.read h b) := by
  intro k
  induction k with
  | zero =>
    intro i fuel h s hik hf _
    obtain ⟨g, rfl⟩ : ∃ g, fuel = g + 1 := ⟨fuel - 1, by omega⟩
    have hnone : as[i]? = none := List.getElem?_eq_none (by omega)
    have hx : xs.drop i = [] := List.drop_eq_nil_of_le (by omega)
    rw [hnone, hx]
    refine ⟨h, rfl, rfl, ?_, fun _ _ => rfl⟩
    intro j a hij haj
    rw [List.getElem?_eq_none (by omega)] at haj
    exact absurd haj (by simp)
  | succ k ih =>
    intro i fuel h s hik hf hcells
    obtain ⟨g, rfl⟩ : ∃ g, fuel = g + 1 := ⟨fuel - 1, by omega⟩
    have hil : i < as.length := by omega
    have ha : as[i]? = some as[i] := List.getElem?_eq_getElem hil
    obtain ⟨x, pv, hx, hr⟩ := hcells i _ (Nat.le_refl i) ha
    obtain ⟨hi2, hxi⟩ := List.getElem?_eq_some_iff.mp hx
    have hne : ∀ j c, i + 1 ≤ j → as[j]? = some c → as[i] ≠ c := by
      intro j c hij hc e
      have := List.getElem?_inj hil hnd (ha.trans (e ▸ hc.symm))
      omega
    obtain ⟨h1, hrun, hlen1, hdead, hframe⟩ :=
      ih (i + 1) g (h.set as[i] none) (f s x) (by omega) (by omega) (by
        intro j c hij hc
        obtain ⟨y, pw, hy, hrc⟩ := hcells j c (by omega) hc
        refine ⟨y, pw, hy, ?_⟩
        rw [Heap.read_set_none, if_neg (hne j c hij hc), hrc])
    refine ⟨h1, ?_, ?_, ?_, ?_⟩
    · rw [ha, List.drop_eq_getElem_cons hi2, hxi]
      simp only [clear_loop, Heap.getNext, Heap.getData, hr, Heap.free, Option.map_some',
        Option.bind_eq_bind, Option.some_bind, List.foldl_cons]
      exact hrun
    · rw [hlen1, List.length_set]
    · intro j c hij hc
      by_cases hji : j = i
      · have hci : c = as[i] := by
          rw [hji, ha] at hc
          exact (Option.some.inj hc).symm
        rw [hci, hframe as[i] (fun j' hj' e => hne j' _ hj' e rfl), Heap.read_set_none,
          if_pos rfl]
      · exact hdead j c (by omega) hc
    · intro b hb
      have hbi : as[i] ≠ b := fun e => hb i (Nat.le_refl i) (e ▸ ha)
      rw [hframe b (fun j hj => hb j (by omega)), Heap.read_set_none, if_neg hbi]

/-- The heap left by the loop of `clear(onDestroyAction)` is the heap left by the loop of
`_destroy`, whatever the callback does. -/
theorem clear_loop_fst {σ : Type} (f : σ → α → σ) :
    ∀ (fuel : Nat) (h : Heap α) (s : σ) (node : Ptr),
      (clear_loop f fuel h s node).map Prod.fst = _destroy_loop fuel h node := by
  intro fuel
  induction fuel with
  | zero => intro h s node; rfl
  | succ g ih =>
    intro h s node
    cases node with
    | none => rfl
    | some a =>
      cases hr : Heap.read h a with
      | none => simp [_destroy_loop, clear_loop, Heap.getNext, hr]
      | some n =>
        simp only [_destroy_loop, clear_loop, Heap.getNext, Heap.getData, Heap.free, hr,
          Option.map_some', Option.bind_eq_bind, Option.some_bind]
        exact ih _ _ _

/-- Heap and container left by `clear(onDestroyAction)` are those left by `_destroy()`,
whatever the callback does. -/
theorem clear_with_fst {σ : Type} (f : σ → α → σ) (s : σ) (h : Heap α) (l : LinkedList) :
    (clear_with f s h l).map (fun r => (r.1, r.2.1)) = _destroy h l := by
  unfold clear_with _destroy
  cases hh : l._head with
  | none => rfl
  | some a =>
    simp only [Option.bind_eq_bind]
    rw [← clear_loop_fst f (h.length + 1) h s (some a)]
    cases clear_loop f (h.length + 1) h s (some a) with
    | none => rfl
    | some r => rfl

/-- `clear(onDestroyAction)` on a linked chain: it succeeds, the callback has been applied to
the elements in head-to-tail order, every node of the chain is deleted, no other cell is
touched and the container is the empty list. -/
theorem clear_with_linked {σ : Type} (f : σ → α → σ) (s : σ) {h : Heap α} {l : LinkedList}
    {as : List Nat} {xs : List α} (hL : Linked h l as xs) :
    ∃ h1, clear_with f s h l = some (h1, empty_list, xs.foldl f s) ∧ h1.length = h.length ∧
      (∀ a, a ∈ as → Heap.read h1 a = none) ∧
      (∀ b, b ∉ as → Heap.read h1 b = Heap.read h b) := by
  have hle := hL.length_le
  obtain ⟨h1, hrun, hlen1, hdead, hframe⟩ :=
    clear_loop_chain f hL.1 hL.2.1 as.length 0 (h.length + 1) h s (by omega) (by omega) (by
      intro j a _ ha
      obtain ⟨x, hx, hr⟩ := hL.cell ha
      exact ⟨x, _, hx, hr⟩)
  rw [← hL.head_eq, List.drop_zero] at hrun
  refine ⟨h1, ?_, hlen1, ?_, ?_⟩
  · unfold clear_with
    cases hh : l._head with
    | none =>
      rw [hh] at hrun
      have e : clear_loop f (h.length + 1) h s none = some (h, s) := rfl
      rw [e] at hrun
      have e1 : h1 = h := by injection hrun with e2; injection e2 with e3 _; exact e3.symm
      have e2 : xs.foldl f s = s := by injection hrun with e2; injection e2 with _ e3; exact e3.symm
      simp only [Option.bind_eq_bind, Option.some_bind, e1, e2]
      rfl
    | some a =>
      rw [hh] at hrun
      simp only [hrun, Option.bind_eq_bind, Option.some_bind]
      rfl
  · intro a ha
    obtain ⟨j, hj⟩ := List.getElem?_of_mem ha
    exact hdead j a (Nat.zero_le j) hj
  · intro b hb
    exact hframe b (fun j _ e => hb (List.getElem?_mem e))

/-- `_destroy()` and `clear()` on a linked chain: every node of the chain is deleted, no
other cell is touched and the container is the empty list. -/
theorem destroy_linked {h : Heap α} {l : LinkedList} {as : List Nat} {xs : List α}
    (hL : Linked h l as xs) :
    ∃ h1, _destroy h l = some (h1, empty_list) ∧ h1.length = h.length ∧
      (∀ a, a ∈ as → Heap.read h1 a = none) ∧
      (∀ b, b ∉ as → Heap.read h1 b = Heap.read h b) := by
  obtain ⟨h1, hrun, hlen1, hdead, hframe⟩ :=
    clear_with_linked (fun (_ : Unit) (_ : α) => ()) () hL
  refine ⟨h1, ?_, hlen1, hdead, hframe⟩
  rw [← clear_with_fst (fun (_ : Unit) (_ : α) => ()) () h l, hrun]
  rfl

theorem take_eraseIdx_self (l : List α) (i : Nat) (hi : i ≤ l.length) :
    (l.eraseIdx i).take i = l.take i := by
  rw [List.eraseIdx_eq_take_drop_succ, List.take_append_of_le_length (by simp; omega),
    List.take_take, Nat.min_self]

theorem drop_eraseIdx_add (l : List α) (i k : Nat) (hi : i ≤ l.length) :
    (l.eraseIdx i).drop (i + k) = l.drop (i + k + 1) := by
  rw [List.eraseIdx_eq_take_drop_succ]
  have hlen : (l.take i).length = i := by simp; omega
  rw [List.drop_append_eq_append_drop, hlen, List.drop_eq_nil_of_le (by omega),
    List.nil_append, List.drop_drop]
  congr 1
  omega

/-- The loop of `erase(from, to)` with `from` at position `i` and `to` at position `i + k`
of a linked chain (the end cursor when that is the length): it erases the `k` nodes in
between and returns `to`. -/
theorem erase_range_loop_linked :
    ∀ (k : Nat) (fuel : Nat) (h : Heap α) (l : LinkedList) (as : List Nat) (xs : List α)
      (i : Nat), Linked h l as xs → i + k ≤ as.length → k < fuel →
      ∃ h1 l1, erase_range_loop fuel h l { _node := as[i]? } { _node := as[i + k]? } =
          some (h1, l1, { _node := as[i + k]? }) ∧
        Linked h1 l1 (as.take i ++ as.drop (i + k)) (xs.take i ++ xs.drop (i + k)) ∧
        l1._size + k = l._size ∧ h1.length = h.length := by
  intro k
  induction k with
  | zero =>
    intro fuel h l as xs i hL _ hf
    obtain ⟨g, rfl⟩ : ∃ g, fuel = g + 1 := ⟨fuel - 1, by omega⟩
    refine ⟨h, l, ?_, ?_, rfl, rfl⟩
    · simp [erase_range_loop]
    · simpa using hL
  | succ k ih =>
    intro fuel h l as xs i hL hik hf
    obtain ⟨g, rfl⟩ : ∃ g, fuel = g + 1 := ⟨fuel - 1, by omega⟩
    have hil : i < as.length := by omega
    have ha : as[i]? = some as[i] := List.getElem?_eq_getElem hil
    have hne : ({ _node := as[i]? } : iterator) ≠ { _node := as[i + (k + 1)]? } := by
      intro e
      have e2 : as[i]? = as[i + (k + 1)]? := congrArg iterator._node e
      have := List.getElem?_inj hil hL.1 e2
      omega
    obtain ⟨h1, l1, he, hL1, hs1, _, _, hlen1, _, _⟩ := erase_node_linked hL ha
    have he' : erase h l { _node := as[i]? } = some (h1, l1, { _node := as[i + 1]? }) := by
      rw [ha]; exact he
    have hlen' : (as.eraseIdx i).length = as.length - 1 := List.length_eraseIdx_of_lt hil
    obtain ⟨h2, l2, hrun, hL2, hs2, hlen2⟩ :=
      ih g h1 l1 (as.eraseIdx i) (xs.eraseIdx i) i hL1 (by omega) (by omega)
    have e1 : (as.eraseIdx i)[i]? = as[i + 1]? := by
      rw [List.getElem?_eraseIdx, if_neg (Nat.lt_irrefl i)]
    have e2 : (as.eraseIdx i)[i + k]? = as[i + (k + 1)]? := by
      rw [List.getElem?_eraseIdx, if_neg (by omega)]; rfl
    rw [e1, e2] at hrun
    have hxl : i ≤ xs.length := by rw [← hL.2.1]; omega
    rw [take_eraseIdx_self as i (by omega), drop_eraseIdx_add as i k (by omega),
      take_eraseIdx_self xs i hxl, drop_eraseIdx_add xs i k hxl] at hL2
    refine ⟨h2, l2, ?_, hL2, by omega, by rw [hlen2, hlen1]⟩
    simp only [erase_range_loop, if_pos hne, he', Option.bind_eq_bind, Option.some_bind]
    exact hrun

/-- The loop of `operator+= (const LinkedList&)` for a const-qualified element type, on a
well-formed list with chain `as`,
started on the node at position `i` of a linked chain `bs` that shares no node with `as`:
it appends one fresh node per element of `bs` from position `i` on, in order, and writes to
no node outside `as`. -/
theorem operator_add_assign_copy_loop_linked {r : LinkedList} {bs : List Nat} {ys : List α} :
    ∀ (k i fuel : Nat) (h : Heap α) (l : LinkedList) (as : List Nat) (xs : List α),
      WellFormed h l as xs → Linked h r bs ys → (∀ c, c ∈ as → c ∉ bs) →
      i + k = bs.length → k < fuel → l._size + k < SIZE_MOD →
      ∃ h1 l1 cs, operator_add_assign_copy_loop true fuel h l bs[i]? = some (h1, l1) ∧
        cs.length = k ∧ (∀ c, c ∈ cs → h.length ≤ c) ∧
        WellFormed h1 l1 (as ++ cs) (xs ++ ys.drop i) ∧ l1._size = l._size + k ∧
        h1.length = h.length + k ∧
        ∀ b, b < h.length → b ∉ as → Heap.read h1 b = Heap.read h b := by
  intro k
  induction k with
  | zero =>
    intro i fuel h l as xs hW hR _ hik hf _
    obtain ⟨g, rfl⟩ : ∃ g, fuel = g + 1 := ⟨fuel - 1, by omega⟩
    have hnone : bs[i]? = none := List.getElem?_eq_none (by omega)
    have hy : ys.drop i = [] := List.drop_eq_nil_of_le (by rw [← hR.2.1]; omega)
    rw [hnone, hy]
    refine ⟨h, l, [], rfl, rfl, fun c hc => absurd hc (List.not_mem_nil c), ?_, rfl, rfl,
      fun _ _ _ => rfl⟩
    simpa using hW
  | succ k ih =>
    intro i fuel h l as xs hW hR hdisj hik hf hsz
    obtain ⟨g, rfl⟩ : ∃ g, fuel = g + 1 := ⟨fuel - 1, by omega⟩
    have hil : i < bs.length := by omega
    have hb : bs[i]? = some bs[i] := List.getElem?_eq_getElem hil
    obtain ⟨y, hy, hr⟩ := hR.cell hb
    obtain ⟨hi2, hyi⟩ := List.getElem?_eq_some_iff.mp hy
    have hbl : bs[i] < h.length := Heap.read_lt hr
    have hbas : bs[i] ∉ as := fun hm => hdisj _ hm (List.getElem?_mem hb)
    obtain ⟨h2, l2, hpb, hW2, hs2, hlen2, hframe2⟩ :=
      push_back_linked y hW.1 (by omega)
    have hR2 : Linked h2 r bs ys := hR.frame (fun c hc =>
      hframe2 c (hR.addr_lt hc) (fun hm => hdisj c hm hc))
    have hdisj2 : ∀ c, c ∈ as ++ [h.length] → c ∉ bs := by
      intro c hc hcb
      rcases List.mem_append.mp hc with hc1 | hc1
      · exact hdisj c hc1 hcb
      · rw [List.mem_singleton] at hc1
        have := hR.addr_lt hcb
        omega
    obtain ⟨h3, l3, cs, hrun, hcs, hfresh, hW3, hs3, hlen3, hframe3⟩ :=
      ih (i + 1) g h2 l2 (as ++ [h.length]) (xs ++ [y]) hW2 hR2 hdisj2 (by omega) (by omega)
        (by omega)
    refine ⟨h3, l3, h.length :: cs, ?_, by simp [hcs], ?_, ?_, by omega, by omega, ?_⟩
    · have hnx : Heap.getNext h2 (some bs[i]) = some bs[i + 1]? := by
        simp only [Heap.getNext, hframe2 _ hbl hbas, hr, Option.map_some']
      have hpb' : _push_back (h ++ [some { data := y, next := none, prev := none }]) l
          (some h.length) = some (h2, l2, { _node := some h.length }) := hpb
      rw [hb]
      simp only [operator_add_assign_copy_loop, new_node_of_node_data, if_true, Heap.getData,
        hr, Option.map_some', Heap.alloc, hpb', hnx, Option.bind_eq_bind, Option.some_bind]
      exact hrun
    · intro c hc
      rcases List.mem_cons.mp hc with hc1 | hc1
      · omega
      · have := hfresh c hc1; omega
    · have e1 : as ++ h.length :: cs = as ++ [h.length] ++ cs := by simp
      have e2 : xs ++ ys.drop i = xs ++ [y] ++ ys.drop (i + 1) := by
        rw [List.drop_eq_getElem_cons hi2, hyi]; simp
      rw [e1, e2]; exact hW3
    · intro b hbl' hbas'
      rw [hframe3 b (by omega) (by
        intro hm
        rcases List.mem_append.mp hm with hc1 | hc1
        · exact hbas' hc1
        · rw [List.mem_singleton] at hc1; omega), hframe2 b hbl' hbas']

/-- The default-constructed list is well formed, with no node, in every heap. -/
theorem wellFormed_empty_list (h : Heap α) : WellFormed h empty_list [] ([] : List α) := by
  refine ⟨⟨List.nodup_nil, rfl, rfl, rfl, by decide, fun _ => rfl, ?_⟩, rfl⟩
  intro i hi
  exact absurd hi (Nat.not_lt_zero i)

/-- `operator+= (const LinkedList&)` for a const-qualified element type, on a well-formed
list `A` and a linked chain `B` that
shares no node with `A`, the counts adding up within `Size`: it succeeds, `A` becomes the
well-formed list of its old nodes followed by one fresh node per element of `B`, in order,
and no node outside `A` is written to, so `B` is linked as before. -/
theorem operator_add_assign_copy_linked {h : Heap α} {a b : LinkedList} {as bs : List Nat}
    {xs ys : List α} (hA : WellFormed h a as xs) (hB : Linked h b bs ys)
    (hdisj : ∀ c, c ∈ as → c ∉ bs) (hsz : a._size + b._size < SIZE_MOD) :
    ∃ h1 a1 cs, operator_add_assign_copy true h a b = some (h1, a1) ∧
      cs.length = bs.length ∧ (∀ c, c ∈ cs → h.length ≤ c) ∧
      WellFormed h1 a1 (as ++ cs) (xs ++ ys) ∧ a1._size = a._size + b._size ∧
      Linked h1 b bs ys ∧ h1.length = h.length + bs.length ∧
      ∀ c, c < h.length → c ∉ as → Heap.read h1 c = Heap.read h c := by
  have hle := hB.length_le
  have hbs : b._size = bs.length := hB.2.2.2.1
  obtain ⟨h1, a1, cs, hrun, hcs, hfresh, hW, hs, hlen, hframe⟩ :=
    operator_add_assign_copy_loop_linked bs.length 0 (h.length + 1) h a as xs hA hB hdisj
      (by omega) (by omega) (by omega)
  rw [← hB.head_eq] at hrun
  rw [List.drop_zero] at hW
  refine ⟨h1, a1, cs, hrun, hcs, hfresh, hW, by omega, ?_, hlen, hframe⟩
  exact hB.frame (fun c hc => hframe c (hB.addr_lt hc) (fun hm => hdisj c hm hc))

/-- Folding the callback that appends its argument to a log writes the elements to the log
in order. -/
theorem foldl_log (xs acc : List α) :
    xs.foldl (fun (t : List α) x => t ++ [x]) acc = acc ++ xs := by
  induction xs generalizing acc with
  | nil => simp
  | cons x xs ih => rw [List.foldl_cons, ih]; simp

/-- In a linked chain `empty()` and `size() == 0` agree. -/
theorem Linked.empty_iff_size {h : Heap α} {l : LinkedList} {as : List Nat} {xs : List α}
    (hL : Linked h l as xs) : l.empty = true ↔ l.size = 0 := by
  have hh := hL.head_eq
  have hs : l._size = as.length := hL.2.2.2.1
  unfold empty size
  rw [hh, hs]
  cases as with
  | nil => simp
  | cons a t => simp

/-- Every reachable state is a linked chain. -/
theorem Reachable.linked {h : Heap α} {l : LinkedList} (hr : Reachable h l) :
    ∃ as xs, Linked h l as xs := by
  induction hr with
  | init h => exact ⟨[], [], (wellFormed_empty_list h).1⟩
  | push_back v _ hsz hrun ih =>
    obtain ⟨as, xs, hL⟩ := ih
    obtain ⟨h2, l2, hpb, hW, _⟩ := push_back_linked v hL hsz
    rw [hrun] at hpb
    injection hpb with e
    injection e with e1 e2
    injection e2 with e2 _
    subst e1 e2
    exact ⟨_, _, hW.1⟩
  | push_front v _ hsz hrun ih =>
    obtain ⟨as, xs, hL⟩ := ih
    obtain ⟨h2, l2, hpf, hW, _⟩ := push_front_linked v hL hsz
    rw [hrun] at hpf
    injection hpf with e
    injection e with e1 e2
    injection e2 with e2 _
    subst e1 e2
    exact ⟨_, _, hW.1⟩
  | @insert_offset h h1 l l1 it offset v _ hsz hoff hrun ih =>
    obtain ⟨as, xs, hL⟩ := ih
    by_cases h0 : offset = 0
    · have e0 : LinkedList.insert_offset h l offset v = LinkedList.push_front h l v := by
        subst h0
        simp [LinkedList.insert_offset, _insert_offset, LinkedList.push_front]
      obtain ⟨h2, l2, hpf, hW, _⟩ := push_front_linked v hL hsz
      rw [e0, hpf] at hrun
      injection hrun with e
      injection e with e1 e2
      injection e2 with e2 _
      subst e1 e2
      exact ⟨_, _, hW.1⟩
    · have hge : offset ≥ l._size := by
        rcases hoff with hz | hg
        · exact absurd hz h0
        · exact hg
      have e0 : LinkedList.insert_offset h l offset v = LinkedList.push_back h l v := by
        simp [LinkedList.insert_offset, _insert_offset, LinkedList.push_back, h0, hge]
      obtain ⟨h2, l2, hpb, hW, _⟩ := push_back_linked v hL hsz
      rw [e0, hpb] at hrun
      injection hrun with e
      injection e with e1 e2
      injection e2 with e2 _
      subst e1 e2
      exact ⟨_, _, hW.1⟩
  | erase a _ hmem hrun ih =>
    obtain ⟨as, xs, hL⟩ := ih
    rw [hL.nodes_next_head] at hmem
    obtain ⟨k, hk⟩ := List.getElem?_of_mem hmem
    obtain ⟨h2, l2, he, hL2, _⟩ := erase_linked hL hk
    rw [hrun] at he
    injection he with e
    injection e with e1 e2
    injection e2 with e2 _
    subst e1 e2
    exact ⟨_, _, hL2⟩
  | clear _ hrun ih =>
    obtain ⟨as, xs, hL⟩ := ih
    obtain ⟨h2, hd, _⟩ := destroy_linked hL
    unfold LinkedList.clear at hrun
    rw [hrun] at hd
    injection hd with e
    injection e with e1 e2
    subst e1 e2
    exact ⟨[], [], (wellFormed_empty_list _).1⟩

/-- Counting the passes does not change what the loop of `erase(from, to)` computes. -/
theorem erase_range_loop_count_fst :
    ∀ (fuel : Nat) (h : Heap α) (l : LinkedList) (it «to» : iterator),
      (erase_range_loop_count fuel h l it «to»).map Prod.fst =
        erase_range_loop fuel h l it «to» := by
  intro fuel
  induction fuel with
  | zero => intro h l it «to»; rfl
  | succ g ih =>
    intro h l it «to»
    by_cases hne : it ≠ «to»
    · simp only [erase_range_loop_count, erase_range_loop, if_pos hne, Option.bind_eq_bind]
      cases he : erase h l it with
      | none => rfl
      | some r =>
        obtain ⟨h1, l1, it1⟩ := r
        simp only [Option.some_bind]
        rw [← ih h1 l1 it1 «to»]
        cases erase_range_loop_count g h1 l1 it1 «to» with
        | none => rfl
        | some q => rfl
    · simp only [erase_range_loop_count, erase_range_loop, if_neg hne, Option.map_some']

/-- The loop of `erase(from, to)` with `from` at position `i` and `to` at position `i + k`
of a linked chain: whatever fuel above `k` it is given, it returns `to` after exactly `k`
passes, always with the same heap and fields; the `k` nodes at positions `i, ..., i + k - 1`
are deleted, the others stay linked, and no cell outside the chain is touched. -/
theorem erase_range_loop_count_linked :
    ∀ (k : Nat) (h : Heap α) (l : LinkedList) (as : List Nat) (xs : List α) (i : Nat),
      Linked h l as xs → i + k ≤ as.length →
      ∃ h1 l1,
        (∀ fuel, k < fuel →
          erase_range_loop_count fuel h l { _node := as[i]? } { _node := as[i + k]? } =
            some ((h1, l1, { _node := as[i + k]? }), k)) ∧
        Linked h1 l1 (as.take i ++ as.drop (i + k)) (xs.take i ++ xs.drop (i + k)) ∧
        l1._size + k = l._size ∧
        (∀ a, a ∈ (as.drop i).take k → Heap.read h1 a = none) ∧
        (∀ b, b ∉ as → Heap.read h1 b = Heap.read h b) := by
  intro k
  induction k with
  | zero =>
    intro h l as xs i hL _
    refine ⟨h, l, ?_, by simpa using hL, rfl, ?_, fun _ _ => rfl⟩
    · intro fuel hf
      obtain ⟨g, rfl⟩ : ∃ g, fuel = g + 1 := ⟨fuel - 1, by omega⟩
      simp [erase_range_loop_count]
    · intro a ha
      simp at ha
  | succ k ih =>
    intro h l as xs i hL hik
    have hil : i < as.length := by omega
    have ha : as[i]? = some as[i] := List.getElem?_eq_getElem hil
    have hne : ({ _node := as[i]? } : iterator) ≠ { _node := as[i + (k + 1)]? } := by
      intro e
      have e2 : as[i]? = as[i + (k + 1)]? := congrArg iterator._node e
      have := List.getElem?_inj hil hL.1 e2
      omega
    obtain ⟨h1, l1, he, hL1, hs1, _, _, _, hdead, hframe1⟩ := erase_node_linked hL ha
    have he' : erase h l { _node := as[i]? } = some (h1, l1, { _node := as[i + 1]? }) := by
      rw [ha]; exact he
    have hlen' : (as.eraseIdx i).length = as.length - 1 := List.length_eraseIdx_of_lt hil
    obtain ⟨h2, l2, hrun, hL2, hs2, hdel2, hframe2⟩ :=
      ih h1 l1 (as.eraseIdx i) (xs.eraseIdx i) i hL1 (by omega)
    have e1 : (as.eraseIdx i)[i]? = as[i + 1]? := by
      rw [List.getElem?_eraseIdx, if_neg (Nat.lt_irrefl i)]
    have e2 : (as.eraseIdx i)[i + k]? = as[i + (k + 1)]? := by
      rw [List.getElem?_eraseIdx, if_neg (by omega)]; rfl
    rw [e1, e2] at hrun
    have hxl : i ≤ xs.length := by rw [← hL.2.1]; omega
    rw [take_eraseIdx_self as i (by omega), drop_eraseIdx_add as i k (by omega),
      take_eraseIdx_self xs i hxl, drop_eraseIdx_add xs i k hxl] at hL2
    have hgone : as[i] ∉ as.eraseIdx i := by
      intro hm
      obtain ⟨m, hm1⟩ := List.mem_iff_getElem?.mp hm
      rw [List.getElem?_eraseIdx] at hm1
      by_cases hmi : m < i
      · rw [if_pos hmi] at hm1
        have := List.getElem?_inj hil hL.1 (ha.trans hm1.symm)
        omega
      · rw [if_neg hmi] at hm1
        have := List.getElem?_inj hil hL.1 (ha.trans hm1.symm)
        omega
    refine ⟨h2, l2, ?_, hL2, by omega, ?_, ?_⟩
    · intro fuel hf
      obtain ⟨g, rfl⟩ : ∃ g, fuel = g + 1 := ⟨fuel - 1, by omega⟩
      simp only [erase_range_loop_count, if_pos hne, he', hrun g (by omega),
        Option.bind_eq_bind, Option.some_bind]
    · intro a hmem
      rw [List.drop_eq_getElem_cons hil, List.take_succ_cons] at hmem
      rcases List.mem_cons.mp hmem with e | hrest
      · rw [e, hframe2 _ hgone]; exact hdead
      · apply hdel2
        have e3 := drop_eraseIdx_add as i 0 (by omega)
        rw [Nat.add_zero] at e3
        rw [e3]; exact hrest
    · intro b hb
      rw [hframe2 b (fun hm => hb (List.mem_of_mem_eraseIdx hm)), hframe1 b hb]

/-! ## The claims -/

/-- C1: on a well-formed list holding `xs` (whose count can still grow by one within
`Size`), `push_back(v)` succeeds, leaves a well-formed list with head-to-tail sequence
`xs ++ [v]`, and `push_front(v)` one with sequence `v :: xs`; each raises `size()` by exactly
one and returns a cursor to the node created by the call (a fresh address holding `v`).
From the empty list, `push_back(1); push_back(2); push_front(0)` gives `[0,1,2]`, size 3. -/
theorem push_back_push_front_spec {α : Type} (h : Heap α) (l : LinkedList) (as : List Nat)
    (xs : List α) (v : α) (hwf : WellFormed h l as xs) (hsz : l.size + 1 < SIZE_MOD) :
    (∃ h1 l1, push_back h l v = some (h1, l1, { _node := some h.length }) ∧
      WellFormed h1 l1 (as ++ [h.length]) (xs ++ [v]) ∧ to_list h1 l1 = xs ++ [v] ∧
      l1.size = l.size + 1 ∧ Heap.read h h.length = none ∧
      Heap.getData h1 (some h.length) = some v) ∧
    (∃ h1 l1, push_front h l v = some (h1, l1, { _node := some h.length }) ∧
      WellFormed h1 l1 (h.length :: as) (v :: xs) ∧ to_list h1 l1 = v :: xs ∧
      l1.size = l.size + 1 ∧ Heap.read h h.length = none ∧
      Heap.getData h1 (some h.length) = some v) ∧
    (∃ h1 l1 i1 h2 l2 i2 h3 l3 i3,
      push_back ([] : Heap Nat) empty_list 1 = some (h1, l1, i1) ∧
      push_back h1 l1 2 = some (h2, l2, i2) ∧
      push_front h2 l2 0 = some (h3, l3, i3) ∧
      to_list h3 l3 = [0, 1, 2] ∧ l3.size = 3) := by
  have hfree : Heap.read h h.length = none := by simp [Heap.read]
  refine ⟨?_, ?_, ?_⟩
  · obtain ⟨h1, l1, hpb, hW, hs, _, _⟩ := push_back_linked v hwf.1 hsz
    refine ⟨h1, l1, hpb, hW, hW.1.to_list_eq, hs, hfree, ?_⟩
    have hlast : (as ++ [h.length])[as.length]? = some h.length :=
      List.getElem?_concat_length as h.length
    obtain ⟨x, hx, hr⟩ := hW.1.cell hlast
    have hxv : x = v := by
      rw [List.getElem?_append_right (by rw [hwf.1.2.1]), hwf.1.2.1] at hx
      simpa using hx.symm
    simp [Heap.getData, hr, hxv]
  · obtain ⟨h1, l1, hpf, hW, hs, _, _⟩ := push_front_linked v hwf.1 hsz
    refine ⟨h1, l1, hpf, hW, hW.1.to_list_eq, hs, hfree, ?_⟩
    have hfirst : (h.length :: as)[0]? = some h.length := List.getElem?_cons_zero
    obtain ⟨x, hx, hr⟩ := hW.1.cell hfirst
    have hxv : x = v := by simpa using hx.symm
    simp [Heap.getData, hr, hxv]
  · exact ⟨_, _, _, _, _, _, _, _, _, rfl, rfl, rfl, by decide, by decide⟩

/-- C1 (witness): the list `[0,1,2]` built by three `push_back` calls is well formed, and
`push_back(7)` / `push_front(7)` on it behave as `push_back_push_front_spec` states. -/
theorem push_back_push_front_spec_witness :
    WellFormed heap_012 list_012 [0, 1, 2] [0, 1, 2] ∧ list_012.size + 1 < SIZE_MOD ∧
    (∃ h1 l1, push_back heap_012 list_012 7 = some (h1, l1, { _node := some 3 }) ∧
      to_list h1 l1 = [0, 1, 2, 7] ∧ l1.size = 4) ∧
    (∃ h1 l1, push_front heap_012 list_012 7 = some (h1, l1, { _node := some 3 }) ∧
      to_list h1 l1 = [7, 0, 1, 2] ∧ l1.size = 4) := by
  have hw : WellFormed heap_012 list_012 [0, 1, 2] [0, 1, 2] := by decide
  have hs : list_012.size + 1 < SIZE_MOD := by decide
  obtain ⟨⟨h1, l1, e1, _, t1, s1, _⟩, ⟨h2, l2, e2, _, t2, s2, _⟩, _⟩ :=
    push_back_push_front_spec heap_012 list_012 [0, 1, 2] [0, 1, 2] 7 hw hs
  exact ⟨hw, hs, ⟨h1, l1, e1, t1, s1⟩, ⟨h2, l2, e2, t2, s2⟩⟩

/-- C2: the move form `A += std::move(B)` with `A` the default-constructed (empty) list and
`B = [5,6]`, both well formed: the first statement `_tail->next = right._head` dereferences
`A`'s null `_tail`, so the call has no defined result, for this and for every other `B`.
With `A = [0,2]` the same call gives `A = [0,2,5,6]`, size 4, and `B` empty. -/
theorem operator_add_assign_move_empty_left :
    build [0, 2] = some (heap_02, list_02) ∧
    build_on heap_02 [5, 6] = some (heap_02_56, list_56) ∧
    WellFormed heap_02_56 empty_list [] [] ∧ WellFormed heap_02_56 list_56 [2, 3] [5, 6] ∧
    operator_add_assign_move heap_02_56 empty_list list_56 = none ∧
    (∀ (h : Heap Nat) (right : LinkedList),
      operator_add_assign_move h empty_list right = none) ∧
    WellFormed heap_02_56 list_02 [0, 1] [0, 2] ∧
    (∃ h1 a1, operator_add_assign_move heap_02_56 list_02 list_56 = some (h1, a1, empty_list) ∧
      WellFormed h1 a1 [0, 1, 2, 3] [0, 2, 5, 6] ∧ to_list h1 a1 = [0, 2, 5, 6] ∧
      a1.size = 4) := by
  refine ⟨by decide, by decide, by decide, by decide, by decide, fun h right => rfl,
    by decide, ⟨_, _, rfl, by decide, by decide, by decide⟩⟩

/-- C3: `erase(begin())` on the well-formed one-element list `[7]`: the node is both head
and tail; `_erase` sets `_head` to null and, taking the `else if` only when the node is not
the head, leaves `_tail` at the address of the node it has just deleted.  On `[0,1,2]`,
erasing the head, the interior node or the tail gives well-formed lists. -/
theorem erase_sole_node_keeps_tail :
    build [7] = some (heap_7, list_7) ∧ WellFormed heap_7 list_7 [0] [7] ∧
    erase heap_7 list_7 list_7.begin =
      some ([none], { _head := none, _tail := some 0, _size := 0 }, «end») ∧
    Heap.read ([none] : Heap Nat) 0 = none ∧
    ¬ WellFormed ([none] : Heap Nat) { _head := none, _tail := some 0, _size := 0 } [] [] ∧
    WellFormed heap_012 list_012 [0, 1, 2] [0, 1, 2] ∧
    (∃ h1 l1, erase heap_012 list_012 { _node := some 0 } = some (h1, l1, { _node := some 1 }) ∧
      WellFormed h1 l1 [1, 2] [1, 2]) ∧
    (∃ h1 l1, erase heap_012 list_012 { _node := some 1 } = some (h1, l1, { _node := some 2 }) ∧
      WellFormed h1 l1 [0, 2] [0, 2]) ∧
    (∃ h1 l1, erase heap_012 list_012 { _node := some 2 } = some (h1, l1, «end») ∧
      WellFormed h1 l1 [0, 1] [0, 1]) := by
  refine ⟨by decide, by decide, by decide, by decide, by decide, by decide,
    ⟨_, _, rfl, by decide⟩, ⟨_, _, rfl, by decide⟩, ⟨_, _, rfl, by decide⟩⟩

/-- C4: `insert(1, 9)` on the well-formed list `[0,1,2]` (so `0 < 1 < size()`): the walk
stops on the node at position 1 and `_insert` links the new node behind it, giving
`[0,1,9,2]` and not `take 1 ++ [9] ++ drop 1 = [0,9,1,2]`; `insert(2, 9)` walks to the
tail, whose `next` is null, and `prev->next->prev = node` has no defined result. -/
theorem insert_offset_lands_one_late :
    build [0, 1, 2] = some (heap_012, list_012) ∧
    WellFormed heap_012 list_012 [0, 1, 2] [0, 1, 2] ∧
    (∃ h1 l1, insert_offset heap_012 list_012 1 9 = some (h1, l1, { _node := some 3 }) ∧
      to_list h1 l1 = [0, 1, 9, 2] ∧ l1.size = 4 ∧
      to_list h1 l1 ≠ List.take 1 [0, 1, 2] ++ [9] ++ List.drop 1 [0, 1, 2]) ∧
    insert_offset heap_012 list_012 2 9 = none := by
  refine ⟨by decide, by decide, ⟨_, _, rfl, by decide, by decide, by decide⟩, by decide⟩

/-- C5: `insert(c, 9)` on the well-formed list `[0,1,2]` with `c` the cursor of the node
holding `1` (address 1, predecessor at address 0): the new node (address 3) gets
`next` = the node after the referenced one and `prev` = its own address, and the sequence
becomes `[0,1,9,2]`: the element is placed behind the referenced one, not in front of it.
With `c` the cursor of the tail the call has no defined result.  With `c` the end cursor
the call is `push_back(v)`. -/
theorem insert_cursor_links_behind :
    build [0, 1, 2] = some (heap_012, list_012) ∧
    WellFormed heap_012 list_012 [0, 1, 2] [0, 1, 2] ∧
    (∃ h1 l1, insert heap_012 list_012 { _node := some 1 } 9 =
        some (h1, l1, { _node := some 3 }) ∧
      Heap.read h1 3 = some { data := 9, next := some 2, prev := some 3 } ∧
      to_list h1 l1 = [0, 1, 9, 2]) ∧
    insert heap_012 list_012 { _node := some 2 } 9 = none ∧
    (∀ (h : Heap Nat) (l : LinkedList) (v : Nat), insert h l «end» v = push_back h l v) := by
  refine ⟨by decide, by decide, ⟨_, _, rfl, by decide, by decide⟩, by decide,
    fun h l v => rfl⟩

/-- C6: `get_iterator(1)` on the well-formed list `[0,1,2]`: the loop
`while (node && index > 0) node = node->next;` never decrements `index`, runs to the end of
the chain and returns the end cursor, not a cursor to the node holding `xs[1]`; `at(1)`
then dereferences the null cursor.  Offset 0 returns the head; offset 3 returns end. -/
theorem get_iterator_offset_runs_to_end :
    build [0, 1, 2] = some (heap_012, list_012) ∧
    WellFormed heap_012 list_012 [0, 1, 2] [0, 1, 2] ∧
    get_iterator_offset heap_012 list_012 1 = some «end» ∧
    get_iterator_offset heap_012 list_012 2 = some «end» ∧
    «at» heap_012 list_012 1 = none ∧
    get_iterator_offset heap_012 list_012 0 = some { _node := some 0 } ∧
    «at» heap_012 list_012 0 = some 0 ∧
    get_iterator_offset heap_012 list_012 3 = some «end» := by
  decide

/-- C7: `erase(1)` by offset on the well-formed list `[0,1,2]`: `get_iterator(1)` returns
the end cursor, so nothing is erased: heap and list are unchanged, the sequence is still
`[0,1,2]` and `size()` is still 3, not `[0,2]` with size 2. -/
theorem erase_offset_erases_nothing :
    build [0, 1, 2] = some (heap_012, list_012) ∧
    WellFormed heap_012 list_012 [0, 1, 2] [0, 1, 2] ∧
    erase_offset heap_012 list_012 1 = some (heap_012, list_012, «end») ∧
    to_list heap_012 list_012 = [0, 1, 2] ∧ list_012.size = 3 := by
  decide

/-- C8: move-construction and move-assignment from the well-formed list `S = [0,1,2]`:
the destination receives `S`'s head, tail and count, and `S` keeps all three (for every
source, `_move` hands the source back as it was), so `S` is not empty afterwards and both
containers reference the same nodes; destroying the moved-from `S` then deletes the nodes
the destination still points to. -/
theorem move_leaves_source_unchanged :
    build [0, 1, 2] = some (heap_012, list_012) ∧
    WellFormed heap_012 list_012 [0, 1, 2] [0, 1, 2] ∧
    move_construct heap_012 list_012 = some (heap_012, list_012, list_012) ∧
    move_assign heap_012 empty_list list_012 = some (heap_012, list_012, list_012) ∧
    list_012._head ≠ none ∧ list_012._tail ≠ none ∧ list_012.size ≠ 0 ∧
    (∀ (h : Heap Nat) (s : LinkedList), move_construct h s =
      some (h, { _head := s._head, _tail := s._tail, _size := s._size }, s)) ∧
    (∃ h1 s1, _destroy heap_012 list_012 = some (h1, s1) ∧ to_list h1 list_012 = [] ∧
      Heap.getData h1 list_012._head = none) := by
  refine ⟨by decide, by decide, by decide, by decide, by decide, by decide, by decide,
    fun h s => rfl, ⟨_, _, rfl, by decide, by decide⟩⟩

/-- C9: the emptiness invariant holds for the default-constructed list and for the
well-formed list `[7]`, and `erase(begin())` on `[7]` breaks it: afterwards `_head` is
null and `size()` is 0 while `_tail` is not null. -/
theorem erase_breaks_empty_agree :
    empty_agree empty_list ∧ build [7] = some (heap_7, list_7) ∧
    WellFormed heap_7 list_7 [0] [7] ∧ empty_agree list_7 ∧
    (∃ h1 l1 it, erase heap_7 list_7 list_7.begin = some (h1, l1, it) ∧
      l1._head = none ∧ l1.size = 0 ∧ l1._tail ≠ none ∧ ¬ empty_agree l1) := by
  refine ⟨by decide, by decide, by decide, by decide,
    ⟨_, _, _, rfl, by decide, by decide, by decide, by decide⟩⟩

/-- C10: the state reached from the empty list by `push_back(0); push_back(1);
push_back(2); insert(1, 9)`: following `next` from head visits the four nodes
(addresses 0, 1, 3, 2) and ends at tail, but the new node's `prev` is its own address and
not its structural predecessor (address 1), so following `prev` from tail reaches the new
node and stays there, never arriving at head: the state is well formed for no chain. -/
theorem insert_breaks_prev_chain :
    build [0, 1, 2] = some (heap_012, list_012) ∧
    insert_offset heap_012 list_012 1 9 = some (heap_0192, list_0192, { _node := some 3 }) ∧
    list_0192.size = 4 ∧
    nodes_next heap_0192 (heap_0192.length + 1) list_0192._head = [0, 1, 3, 2] ∧
    list_0192._tail = some 2 ∧ Heap.getPrev heap_0192 (some 3) = some (some 3) ∧
    nodes_prev heap_0192 (heap_0192.length + 1) list_0192._tail = [2, 3, 3, 3, 3] ∧
    (∀ as xs, ¬ WellFormed heap_0192 list_0192 as xs) := by
  have hn : nodes_next heap_0192 (heap_0192.length + 1) list_0192._head = [0, 1, 3, 2] := by
    decide
  have hp : nodes_prev heap_0192 (heap_0192.length + 1) list_0192._tail = [2, 3, 3, 3, 3] := by
    decide
  refine ⟨by decide, by decide, by decide, hn, by decide, by decide, hp, ?_⟩
  intro as xs hW
  have e1 := hW.1.nodes_next_head
  have e2 := hW.nodes_prev_tail
  rw [hn] at e1
  rw [hp, ← e1] at e2
  exact absurd e2 (by decide)

/-- C11: copy construction from the well-formed list `C = [0,1,2]` (and copy assignment
from it): the first pass of the loop of `_copy` evaluates `node.data` with `node` a `Node*`,
an expression that does not type-check, so the call has no result and no copy with the size
and the elements of `C` is produced; this holds for every source list that has a node. -/
theorem copy_construct_has_no_result :
    build [0, 1, 2] = some (heap_012, list_012) ∧
    WellFormed heap_012 list_012 [0, 1, 2] [0, 1, 2] ∧
    copy_construct heap_012 list_012 = none ∧
    copy_assign heap_012 empty_list list_012 = none ∧
    (∀ (h : Heap Nat) (a : Nat) (tail : Ptr) (n : Nat),
      copy_construct h { _head := some a, _tail := tail, _size := n } = none) := by
  refine ⟨by decide, by decide, by decide, by decide, fun h a tail n => rfl⟩

/-- C12: the copy form `A += B` with `A = [0,2]` and `B = [5,6]`, well formed and distinct.
For an element type that is not const-qualified the first pass of the loop evaluates
`new Node{ node->data }`, which selects the constructor template of `Node` and does not
type-check: the call has no result, and `A` does not become `[0,2,5,6]`.  For a
const-qualified element type the same call gives `A = [0,2,5,6]`, size 4, and leaves `B`
as it was. -/
theorem operator_add_assign_copy_non_const_element :
    WellFormed heap_02_56 list_02 [0, 1] [0, 2] ∧
    WellFormed heap_02_56 list_56 [2, 3] [5, 6] ∧
    operator_add_assign_copy false heap_02_56 list_02 list_56 = none ∧
    (∀ (h : Heap Nat) (l : LinkedList) (d : Node Nat) (tail : Ptr) (n : Nat),
      operator_add_assign_copy false (h ++ [some d]) l
        { _head := some h.length, _tail := tail, _size := n } = none) ∧
    (∃ h1 a1, operator_add_assign_copy true heap_02_56 list_02 list_56 = some (h1, a1) ∧
      WellFormed h1 a1 [0, 1, 4, 5] [0, 2, 5, 6] ∧ to_list h1 a1 = [0, 2, 5, 6] ∧
      a1.size = 4 ∧ WellFormed h1 list_56 [2, 3] [5, 6]) := by
  refine ⟨by decide, by decide, by decide, ?_, ⟨_, _, rfl, by decide, by decide, by decide,
    by decide⟩⟩
  intro h l d tail n
  simp [operator_add_assign_copy, operator_add_assign_copy_loop, new_node_of_node_data,
    Heap.getData, Heap.read]

/-- C13 (counterexample): `L = [7]` and `B = [8]` are well-formed lists; `L.erase(B.begin())`
returns and leaves `L` with its node as head and with count 0.  In that state 0 is an offset
`>= size()`, and `insert(0, 9)` is `push_front(9)`, which puts 9 before 7, and is not
`push_back(9)`, which puts 9 behind 7. -/
theorem insert_offset_zero_counted_out :
    WellFormed heap_7_8 list_7 [0] [7] ∧ WellFormed heap_7_8 list_8 [1] [8] ∧
    erase heap_7_8 list_7 list_8.begin = some (heap_7_x, list_7_counted_out, «end») ∧
    list_7_counted_out.size = 0 ∧ list_7_counted_out.empty = false ∧
    0 ≥ list_7_counted_out.size ∧
    insert_offset heap_7_x list_7_counted_out 0 9 = push_front heap_7_x list_7_counted_out 9 ∧
    insert_offset heap_7_x list_7_counted_out 0 9 ≠ push_back heap_7_x list_7_counted_out 9 ∧
    (∃ h1 l1 c1 h2 l2 c2,
      insert_offset heap_7_x list_7_counted_out 0 9 = some (h1, l1, c1) ∧
      push_back heap_7_x list_7_counted_out 9 = some (h2, l2, c2) ∧
      to_list h1 l1 = [9, 7] ∧ to_list h2 l2 = [7, 9]) := by
  refine ⟨by decide, by decide, by decide, by decide, by decide, by decide, by decide,
    by decide, ⟨_, _, _, _, _, _, rfl, rfl, by decide, by decide⟩⟩

/-- C13 (amended): in every list state, `insert(0, v)` gives exactly the result of
`push_front(v)`: same heap, same container fields, same returned cursor, undefined together;
and for every `offset >= size()` that is not 0, and for offset 0 when the list is `empty()`,
`insert(offset, v)` gives exactly the result of `push_back(v)`. -/
theorem insert_offset_boundary {α : Type} (h : Heap α) (l : LinkedList) (v : α)
    (offset : Nat) :
    insert_offset h l 0 v = push_front h l v ∧
    (offset ≥ l.size → offset ≠ 0 ∨ l.empty = true →
      insert_offset h l offset v = push_back h l v) := by
  constructor
  · simp [insert_offset, _insert_offset, push_front]
  · intro hge hor
    by_cases h0 : offset = 0
    · subst h0
      have hh : l._head = none := by
        rcases hor with hne | he
        · exact absurd rfl hne
        · simpa [empty] using he
      simp [insert_offset, _insert_offset, push_back, _push_front, _push_back, hh]
    · have hge' : offset ≥ l._size := hge
      simp [insert_offset, _insert_offset, push_back, h0, hge']

/-- C13 (witness): `insert(5, 7)` on the list `[0,1,2]` is `push_back(7)`, `insert(0, 7)` is
`push_front(7)`, and `insert(0, 7)` on the empty list is `push_back(7)`. -/
theorem insert_offset_boundary_witness :
    insert_offset heap_012 list_012 0 7 = push_front heap_012 list_012 7 ∧
    5 ≥ list_012.size ∧
    insert_offset heap_012 list_012 5 7 = push_back heap_012 list_012 7 ∧
    (∃ h1 l1, insert_offset heap_012 list_012 5 7 = some (h1, l1, { _node := some 3 }) ∧
      to_list h1 l1 = [0, 1, 2, 7]) ∧
    0 ≥ empty_list.size ∧ empty_list.empty = true ∧
    insert_offset ([] : Heap Nat) empty_list 0 7 = push_back [] empty_list 7 := by
  have hb := insert_offset_boundary heap_012 list_012 7 5
  have he := insert_offset_boundary ([] : Heap Nat) empty_list 7 0
  exact ⟨hb.1, by decide, hb.2 (by decide) (Or.inl (by decide)), ⟨_, _, rfl, by decide⟩,
    by decide, rfl, he.2 (by decide) (Or.inr rfl)⟩

/-- C14: on a well-formed list with chain `as`, for `from` the cursor of position `i` and
`to` the cursor of a position `j >= i` (the end cursor when `j` is the length, which is also
what `from` is when `i` is the length), `erase(from, to)` terminates, removes exactly the
elements at positions `i, ..., j - 1`, keeps the others in their order, lowers `size()` by
`j - i` and returns `to`; the list that is left is well formed unless it is empty. -/
theorem erase_range_spec {α : Type} (h : Heap α) (l : LinkedList) (as : List Nat)
    (xs : List α) (i j : Nat) (hwf : WellFormed h l as xs) (hij : i ≤ j)
    (hj : j ≤ as.length) :
    ∃ h1 l1, erase_range h l { _node := as[i]? } { _node := as[j]? } =
        some (h1, l1, { _node := as[j]? }) ∧
      to_list h1 l1 = xs.take i ++ xs.drop j ∧
      Linked h1 l1 (as.take i ++ as.drop j) (xs.take i ++ xs.drop j) ∧
      l1.size + (j - i) = l.size ∧
      (∀ a, a ∈ as.take i ++ as.drop j → Heap.read h1 a ≠ none) ∧
      (as.take i ++ as.drop j ≠ [] →
        WellFormed h1 l1 (as.take i ++ as.drop j) (xs.take i ++ xs.drop j)) := by
  have hle := hwf.1.length_le
  obtain ⟨h1, l1, hrun, hL, hs, _⟩ :=
    erase_range_loop_linked (j - i) (h.length + 1) h l as xs i hwf.1 (by omega) (by omega)
  have e : i + (j - i) = j := by omega
  rw [e] at hrun hL
  refine ⟨h1, l1, hrun, hL.to_list_eq, hL, hs, ?_, fun hne => ⟨hL, hL.2.2.2.2.2.1 hne⟩⟩
  intro a ha hn
  obtain ⟨k, hk⟩ := List.getElem?_of_mem ha
  obtain ⟨x, _, hr⟩ := hL.cell hk
  rw [hr] at hn
  exact absurd hn (by simp)

/-- C14 (witness): on `[0,1,2]`, `erase(begin(), cursor of the last node)` leaves `[2]` and
`erase(cursor of the second node, end())` leaves `[0]`. -/
theorem erase_range_spec_witness :
    WellFormed heap_012 list_012 [0, 1, 2] [0, 1, 2] ∧
    (∃ h1 l1, erase_range heap_012 list_012 { _node := some 0 } { _node := some 2 } =
        some (h1, l1, { _node := some 2 }) ∧ to_list h1 l1 = [2] ∧ l1.size = 1) ∧
    (∃ h1 l1, erase_range heap_012 list_012 { _node := some 1 } «end» =
        some (h1, l1, «end») ∧ to_list h1 l1 = [0] ∧ l1.size = 1) := by
  have hw : WellFormed heap_012 list_012 [0, 1, 2] [0, 1, 2] := by decide
  obtain ⟨h1, l1, e1, t1, _, s1, _⟩ :=
    erase_range_spec heap_012 list_012 [0, 1, 2] [0, 1, 2] 0 2 hw (by decide) (by decide)
  obtain ⟨h2, l2, e2, t2, _, s2, _⟩ :=
    erase_range_spec heap_012 list_012 [0, 1, 2] [0, 1, 2] 1 3 hw (by decide) (by decide)
  have hs1 : l1.size = 1 := by
    have : list_012.size = 3 := rfl
    omega
  have hs2 : l2.size = 1 := by
    have : list_012.size = 3 := rfl
    omega
  exact ⟨hw, ⟨h1, l1, e1, t1, hs1⟩, ⟨h2, l2, e2, t2, hs2⟩⟩

/-- C15: in every list state `erase(end cursor)` succeeds, returns the end cursor and
leaves the heap and the container (head, tail, `size()`, hence the element sequence) as
they were. -/
theorem erase_end_is_noop {α : Type} (h : Heap α) (l : LinkedList) :
    erase h l «end» = some (h, l, «end») := by
  rfl

/-- C16: on the well-formed list `[0,1,2]`, with `p` the address of an object that is no
element of the list (or `nullptr`): the loop of `get_iterator(p)` finds no node and reaches
`return end();`, which in these `const` members does not type-check, so neither
`get_iterator(p)` (pointer and reference form) nor `erase(p)` has a result; no end cursor is
returned. -/
theorem get_iterator_ptr_absent_has_no_result :
    WellFormed heap_012 list_012 [0, 1, 2] [0, 1, 2] ∧
    get_iterator_ptr heap_012 list_012 (ElemPtr.other 0) = none ∧
    get_iterator_ref heap_012 list_012 (ElemPtr.other 0) = none ∧
    get_iterator_ptr heap_012 list_012 ElemPtr.null = none ∧
    erase_ptr heap_012 list_012 (ElemPtr.other 0) = none ∧
    erase_ref heap_012 list_012 (ElemPtr.other 0) = none ∧
    (∀ (h : Heap Nat) (p : ElemPtr), get_iterator_ptr h empty_list p = none) := by
  refine ⟨by decide, by decide, by decide, by decide, by decide, by decide, fun h p => rfl⟩

/-- C17: the operations `push_back(0); push_back(1); push_back(2); insert(1, 9);
erase(cursor returned by insert)` on an initially empty list all succeed: four insertions
and one erasure that removed a node, so `size()` is 3; but walking `next` from head meets
two live nodes only, the second of which points to the deleted node.  The shorter sequence
`push_back(0); push_back(1); insert(1, 9)` has no defined result at all. -/
theorem insert_then_erase_breaks_walk :
    build [0, 1, 2] = some (heap_012, list_012) ∧
    insert_offset heap_012 list_012 1 9 = some (heap_0192, list_0192, { _node := some 3 }) ∧
    erase heap_0192 list_0192 { _node := some 3 } =
      some (heap_01x2, list_01x2, { _node := some 2 }) ∧
    list_01x2.size = 4 - 1 ∧
    nodes_next heap_01x2 (heap_01x2.length + 1) list_01x2._head = [0, 1] ∧
    (nodes_next heap_01x2 (heap_01x2.length + 1) list_01x2._head).length ≠ list_01x2.size ∧
    Heap.getNext heap_01x2 (some 1) = some (some 3) ∧ Heap.read heap_01x2 3 = none ∧
    (∃ h1 l1, build [0, 1] = some (h1, l1) ∧ insert_offset h1 l1 1 9 = none) := by
  refine ⟨by decide, by decide, by decide, by decide, by decide, by decide, by decide,
    by decide, ⟨_, _, rfl, by decide⟩⟩

/-- C18: on a well-formed list with sequence `xs`, `clear(f)` succeeds, has applied the
callback to each element of `xs` exactly once in head-to-tail order (the callback's state
afterwards is `xs.foldl f s`; a callback that logs its argument logs exactly `xs`), has
deleted every node and leaves the container empty (head and tail null, `size()` 0);
`clear()` without callback leaves the same heap and the same empty container. -/
theorem clear_spec {α σ : Type} (h : Heap α) (l : LinkedList) (as : List Nat) (xs : List α)
    (f : σ → α → σ) (s : σ) (hwf : WellFormed h l as xs) :
    ∃ h1, clear_with f s h l = some (h1, empty_list, xs.foldl f s) ∧
      clear_with (fun (t : List α) x => t ++ [x]) [] h l = some (h1, empty_list, xs) ∧
      clear h l = some (h1, empty_list) ∧
      empty_list._head = none ∧ empty_list._tail = none ∧ empty_list.size = 0 ∧
      (∀ a, a ∈ as → Heap.read h1 a = none) := by
  obtain ⟨h1, hrun, _, hdead, _⟩ := clear_with_linked f s hwf.1
  obtain ⟨h2, hrun2, _, _, _⟩ := clear_with_linked (fun (t : List α) x => t ++ [x]) [] hwf.1
  have hd1 := clear_with_fst f s h l
  have hd2 := clear_with_fst (fun (t : List α) x => t ++ [x]) [] h l
  rw [hrun] at hd1
  rw [hrun2, ← hd1] at hd2
  have e : h2 = h1 := by
    simp only [Option.map_some', Option.some.injEq, Prod.mk.injEq, and_true] at hd2
    exact hd2
  rw [e, foldl_log, List.nil_append] at hrun2
  refine ⟨h1, hrun, hrun2, ?_, rfl, rfl, rfl, hdead⟩
  unfold clear
  rw [← hd1]; rfl

/-- C18 (witness): `clear` with a logging callback on `[0,1,2]` logs `[0,1,2]` and leaves
the empty list. -/
theorem clear_spec_witness :
    WellFormed heap_012 list_012 [0, 1, 2] [0, 1, 2] ∧
    (∃ h1, clear_with (fun (n : Nat) x => 10 * n + x) 0 heap_012 list_012 =
        some (h1, empty_list, 12) ∧
      clear_with (fun (t : List Nat) x => t ++ [x]) [] heap_012 list_012 =
        some (h1, empty_list, [0, 1, 2]) ∧
      clear heap_012 list_012 = some (h1, empty_list)) := by
  have hw : WellFormed heap_012 list_012 [0, 1, 2] [0, 1, 2] := by decide
  obtain ⟨h1, e1, e2, e3, _⟩ :=
    clear_spec heap_012 list_012 [0, 1, 2] [0, 1, 2] (fun (n : Nat) x => 10 * n + x) 0 hw
  exact ⟨hw, h1, e1, e2, e3⟩

/-- C19: erase all elements of the well-formed list `[7]` one by one with `erase(cursor)`
and perform `n = 0` insertions: the drained container has `_head` null and count 0 but its
`_tail` still holds the address of the deleted node, while the fresh default-constructed
list has `_tail` null: the two differ.  After one `push_back(5)` (or `push_front(5)`) on
each, both are well-formed one-element lists. -/
theorem drained_list_differs_from_fresh :
    build [7] = some (heap_7, list_7) ∧ WellFormed heap_7 list_7 [0] [7] ∧
    erase heap_7 list_7 list_7.begin = some (heap_drained, list_drained, «end») ∧
    list_drained._head = none ∧ list_drained.size = 0 ∧
    list_drained._tail = some 0 ∧ empty_list._tail = none ∧ list_drained ≠ empty_list ∧
    Heap.read heap_drained 0 = none ∧
    ¬ WellFormed heap_drained list_drained [] [] ∧
    WellFormed heap_drained empty_list [] [] ∧
    (∃ h1 l1 i1 h2 l2 i2, push_back heap_drained list_drained 5 = some (h1, l1, i1) ∧
      push_back ([] : Heap Nat) empty_list 5 = some (h2, l2, i2) ∧
      WellFormed h1 l1 [1] [5] ∧ WellFormed h2 l2 [0] [5]) ∧
    (∃ h1 l1 i1 h2 l2 i2, push_front heap_drained list_drained 5 = some (h1, l1, i1) ∧
      push_front ([] : Heap Nat) empty_list 5 = some (h2, l2, i2) ∧
      WellFormed h1 l1 [1] [5] ∧ WellFormed h2 l2 [0] [5]) := by
  refine ⟨by decide, by decide, by decide, by decide, by decide, by decide, by decide,
    by decide, by decide, by decide, by decide,
    ⟨_, _, _, _, _, _, rfl, rfl, by decide, by decide⟩,
    ⟨_, _, _, _, _, _, rfl, rfl, by decide, by decide⟩⟩

/-- C20: the copy form `A + B` with `A = [0,2]` and `B = [5,6]`, well formed: its first
statement `LinkedList list = *this;` copy-constructs from `A` through `_copy`, whose loop
evaluates `node.data` on a `Node*`; the call has no result for any element type, so no list
`[0,2,5,6]` is returned.  This holds for every `A` that has a node. -/
theorem operator_add_copy_has_no_result :
    WellFormed heap_02_56 list_02 [0, 1] [0, 2] ∧
    WellFormed heap_02_56 list_56 [2, 3] [5, 6] ∧
    copy_construct heap_02_56 list_02 = none ∧
    operator_add_copy false heap_02_56 list_02 list_56 = none ∧
    operator_add_copy true heap_02_56 list_02 list_56 = none ∧
    (∀ (c : Bool) (h : Heap Nat) (a : Nat) (tail : Ptr) (n : Nat) (right : LinkedList),
      operator_add_copy c h { _head := some a, _tail := tail, _size := n } right = none) := by
  refine ⟨by decide, by decide, by decide, by decide, by decide,
    fun c h a tail n right => rfl⟩

/-- C21: in every state reached from the default-constructed list by `push_back`,
`push_front`, `insert` at offset 0 or at an offset `>= size()`, `erase` of the cursor of a
node of the list and `clear()`, `empty()` returns true if and only if `size() == 0`. -/
theorem empty_iff_size_zero {α : Type} (h : Heap α) (l : LinkedList) (hr : Reachable h l) :
    l.empty = true ↔ l.size = 0 := by
  obtain ⟨as, xs, hL⟩ := hr.linked
  exact hL.empty_iff_size

/-- C21 (witness): the state after `push_back(7); erase(begin())` on a fresh list is
reachable; there `empty()` is true and `size()` is 0, although `_tail` is not null. -/
theorem empty_iff_size_zero_witness :
    Reachable heap_drained list_drained ∧
    (list_drained.empty = true ↔ list_drained.size = 0) ∧
    list_drained.empty = true ∧ list_drained.size = 0 ∧ list_drained._tail ≠ none := by
  have e1 : push_back ([] : Heap Nat) empty_list 7 =
      some (heap_7, list_7, { _node := some 0 }) := by decide
  have e2 : erase heap_7 list_7 { _node := some 0 } =
      some (heap_drained, list_drained, «end») := by decide
  have h1 : Reachable heap_7 list_7 := Reachable.push_back 7 (Reachable.init []) (by decide) e1
  have h2 : Reachable heap_drained list_drained := Reachable.erase 0 h1 (by decide) e2
  exact ⟨h2, empty_iff_size_zero heap_drained list_drained h2, by decide, by decide,
    by decide⟩

/-- C22: on a well-formed list (whose count can still grow by one within `Size`), erasing
the cursor returned by `push_back(v)` returns the end cursor, and erasing the cursor
returned by `push_front(v)` returns the cursor of the original head (`begin()` of the
original list); in both cases the head-to-tail element sequence and `size()` are those of
the original list again, on the original chain of nodes with the original head. -/
theorem push_then_erase_restores {α : Type} (h : Heap α) (l : LinkedList) (as : List Nat)
    (xs : List α) (v : α) (hwf : WellFormed h l as xs) (hsz : l.size + 1 < SIZE_MOD) :
    (∃ h1 l1 it h2 l2, push_back h l v = some (h1, l1, it) ∧
      erase h1 l1 it = some (h2, l2, «end») ∧ to_list h2 l2 = to_list h l ∧
      to_list h2 l2 = xs ∧ l2.size = l.size ∧ Linked h2 l2 as xs ∧ l2._head = l._head) ∧
    (∃ h1 l1 it h2 l2, push_front h l v = some (h1, l1, it) ∧
      erase h1 l1 it = some (h2, l2, l.begin) ∧ to_list h2 l2 = to_list h l ∧
      to_list h2 l2 = xs ∧ l2.size = l.size ∧ Linked h2 l2 as xs ∧ l2._head = l._head) := by
  have hlen : as.length = xs.length := hwf.1.2.1
  constructor
  · obtain ⟨h1, l1, hpb, hW1, hs1, _, _⟩ := push_back_linked v hwf.1 hsz
    have hk : (as ++ [h.length])[as.length]? = some h.length :=
      List.getElem?_concat_length as h.length
    obtain ⟨h2, l2, he, hL2, ht2, hs2, _, _⟩ := erase_linked hW1.1 hk
    have ea : (as ++ [h.length]).eraseIdx as.length = as := by
      rw [List.eraseIdx_append_of_length_le (Nat.le_refl _)]; simp
    have ex : (xs ++ [v]).eraseIdx as.length = xs := by
      rw [hlen, List.eraseIdx_append_of_length_le (Nat.le_refl _)]; simp
    have en : (as ++ [h.length])[as.length + 1]? = none :=
      List.getElem?_eq_none (by simp)
    rw [ea, ex] at hL2
    rw [ex] at ht2
    rw [en] at he
    refine ⟨h1, l1, _, h2, l2, hpb, he, ?_, ht2, ?_, hL2, ?_⟩
    · rw [ht2, hwf.1.to_list_eq]
    · have : l2._size + 1 = l1._size := hs2
      have : l1._size = l._size + 1 := hs1
      show l2._size = l._size
      omega
    · rw [hL2.2.2.1, hwf.1.2.2.1]
  · obtain ⟨h1, l1, hpf, hW1, hs1, _, _⟩ := push_front_linked v hwf.1 hsz
    have hk : (h.length :: as)[0]? = some h.length := List.getElem?_cons_zero
    obtain ⟨h2, l2, he, hL2, ht2, hs2, _, _⟩ := erase_linked hW1.1 hk
    have en : (h.length :: as)[0 + 1]? = l._head := by
      rw [hwf.1.head_eq, List.getElem?_cons_succ]
    rw [List.eraseIdx_cons_zero, List.eraseIdx_cons_zero] at hL2
    rw [List.eraseIdx_cons_zero] at ht2
    rw [en] at he
    refine ⟨h1, l1, _, h2, l2, hpf, he, ?_, ht2, ?_, hL2, ?_⟩
    · rw [ht2, hwf.1.to_list_eq]
    · have : l2._size + 1 = l1._size := hs2
      have : l1._size = l._size + 1 := hs1
      show l2._size = l._size
      omega
    · rw [hL2.2.2.1, hwf.1.2.2.1]

/-- C22 (witness): on `[0,1,2]`, `push_back(7)` then `erase` of the returned cursor, and
`push_front(7)` then `erase` of the returned cursor, give `[0,1,2]` with size 3 again. -/
theorem push_then_erase_restores_witness :
    WellFormed heap_012 list_012 [0, 1, 2] [0, 1, 2] ∧ list_012.size + 1 < SIZE_MOD ∧
    (∃ h1 l1 it h2 l2, push_back heap_012 list_012 7 = some (h1, l1, it) ∧
      erase h1 l1 it = some (h2, l2, «end») ∧ to_list h2 l2 = [0, 1, 2] ∧ l2.size = 3) ∧
    (∃ h1 l1 it h2 l2, push_front heap_012 list_012 7 = some (h1, l1, it) ∧
      erase h1 l1 it = some (h2, l2, { _node := some 0 }) ∧ to_list h2 l2 = [0, 1, 2] ∧
      l2.size = 3) := by
  have hw : WellFormed heap_012 list_012 [0, 1, 2] [0, 1, 2] := by decide
  have hs : list_012.size + 1 < SIZE_MOD := by decide
  obtain ⟨⟨h1, l1, it, h2, l2, e1, e2, _, t1, s1, _⟩,
      ⟨h3, l3, it3, h4, l4, e3, e4, _, t2, s2, _⟩⟩ :=
    push_then_erase_restores heap_012 list_012 [0, 1, 2] [0, 1, 2] 7 hw hs
  exact ⟨hw, hs, ⟨h1, l1, it, h2, l2, e1, e2, t1, s1⟩, ⟨h3, l3, it3, h4, l4, e3, e4, t2, s2⟩⟩

/-- C23: on a well-formed list with chain `as`, for `from` the cursor of position `i` and
`to` the cursor of a position `j >= i` (the end cursor at the length), `erase(from, to)`
terminates and returns `to`; its loop makes exactly `j - i` calls of `erase(it)`, with any
fuel above `j - i` and always with the same result, and `j - i` is the number of nodes in
`[from, to)`: exactly these nodes are deleted, `size()` drops by `j - i`, and the elements
left are those before position `i` and from position `j` on.  The counter does not change
what the loop returns. -/
theorem erase_range_terminates {α : Type} (h : Heap α) (l : LinkedList) (as : List Nat)
    (xs : List α) (i j : Nat) (hwf : WellFormed h l as xs) (hij : i ≤ j)
    (hj : j ≤ as.length) :
    (∃ h2 l2,
      erase_range h l { _node := as[i]? } { _node := as[j]? } =
        some (h2, l2, { _node := as[j]? }) ∧
      erase_range_count h l { _node := as[i]? } { _node := as[j]? } =
        some ((h2, l2, { _node := as[j]? }), j - i) ∧
      (∀ fuel, j - i < fuel →
        erase_range_loop_count fuel h l { _node := as[i]? } { _node := as[j]? } =
          some ((h2, l2, { _node := as[j]? }), j - i)) ∧
      l2.size + (j - i) = l.size ∧
      to_list h2 l2 = xs.take i ++ xs.drop j ∧
      (∀ a, a ∈ (as.drop i).take (j - i) → Heap.read h a ≠ none ∧ Heap.read h2 a = none) ∧
      (∀ b, b ∉ (as.drop i).take (j - i) → Heap.read h2 b = none → Heap.read h b = none)) ∧
    ((as.drop i).take (j - i)).length = j - i ∧
    (∀ (fuel : Nat) (h0 : Heap α) (l0 : LinkedList) (it «to» : iterator),
      (erase_range_loop_count fuel h0 l0 it «to»).map Prod.fst =
        erase_range_loop fuel h0 l0 it «to») := by
  have hle := hwf.1.length_le
  have e : i + (j - i) = j := by omega
  obtain ⟨h2, l2, hrun, hL, hs, hdel, hframe⟩ :=
    erase_range_loop_count_linked (j - i) h l as xs i hwf.1 (by omega)
  rw [e] at hrun hL
  have hc := hrun (h.length + 1) (by omega)
  refine ⟨⟨h2, l2, ?_, hc, hrun, hs, hL.to_list_eq, ?_, ?_⟩, ?_, erase_range_loop_count_fst⟩
  · show erase_range_loop (h.length + 1) h l { _node := as[i]? } { _node := as[j]? } = _
    rw [← erase_range_loop_count_fst, hc]
    rfl
  · intro a ha
    refine ⟨?_, hdel a ha⟩
    have hm : a ∈ as := List.mem_of_mem_drop (List.mem_of_mem_take ha)
    obtain ⟨k, hk⟩ := List.getElem?_of_mem hm
    obtain ⟨x, _, hr⟩ := hwf.1.cell hk
    rw [hr]
    simp
  · intro b hb hn
    by_cases hm : b ∈ as
    · exfalso
      have hkeep : b ∈ as.take i ++ as.drop j := by
        rw [← List.take_append_drop i as] at hm
        rcases List.mem_append.mp hm with h1 | h1
        · exact List.mem_append.mpr (Or.inl h1)
        · rw [← List.take_append_drop (j - i) (as.drop i)] at h1
          rcases List.mem_append.mp h1 with h3 | h3
          · exact absurd h3 hb
          · rw [List.drop_drop] at h3
            rw [e] at h3
            exact List.mem_append.mpr (Or.inr h3)
      obtain ⟨k, hk⟩ := List.getElem?_of_mem hkeep
      obtain ⟨x, _, hr⟩ := hL.cell hk
      rw [hr] at hn
      exact absurd hn (by simp)
    · rw [← hframe b hm]
      exact hn
  · rw [List.length_take, List.length_drop]
    omega

/-- C23 (witness): on `[0,1,2]`, `erase(begin(), cursor of the last node)` returns that
cursor after two calls of `erase(it)`; the nodes at addresses 0 and 1 are deleted and `[2]`
is left. -/
theorem erase_range_terminates_witness :
    WellFormed heap_012 list_012 [0, 1, 2] [0, 1, 2] ∧
    (∃ h2 l2,
      erase_range heap_012 list_012 { _node := some 0 } { _node := some 2 } =
        some (h2, l2, { _node := some 2 }) ∧
      erase_range_count heap_012 list_012 { _node := some 0 } { _node := some 2 } =
        some ((h2, l2, { _node := some 2 }), 2) ∧
      l2.size + 2 = 3 ∧ to_list h2 l2 = [2] ∧
      Heap.read h2 0 = none ∧ Heap.read h2 1 = none) := by
  have hw : WellFormed heap_012 list_012 [0, 1, 2] [0, 1, 2] := by decide
  obtain ⟨⟨h2, l2, e1, e2, _, hs, ht, hdel, _⟩, _, _⟩ :=
    erase_range_terminates heap_012 list_012 [0, 1, 2] [0, 1, 2] 0 2 hw (by decide)
      (by decide)
  exact ⟨hw, h2, l2, e1, e2, hs, ht, (hdel 0 (by decide)).2, (hdel 1 (by decide)).2⟩

end LinkedList

/-- C24: for integers `value`, `min`, `max` of one type with `min <= max`,
`utils::clamp(value, min, max)` is `max(min(max, value), min)`; it lies between `min` and
`max`, is `value` when `min <= value <= max`, `min` when `value < min` and `max` when
`value > max`. -/
theorem clamp_spec (value lo hi : Int) (hle : lo ≤ hi) :
    clamp value lo hi = Max.max (Min.min hi value) lo ∧
    lo ≤ clamp value lo hi ∧ clamp value lo hi ≤ hi ∧
    (lo ≤ value → value ≤ hi → clamp value lo hi = value) ∧
    (value < lo → clamp value lo hi = lo) ∧
    (value > hi → clamp value lo hi = hi) := by
  unfold clamp std_max std_min
  refine ⟨?_, ?_, ?_, ?_, ?_, ?_⟩ <;> split_ifs <;> omega

/-- C24 (witness): clamping 15, -3 and 7 to the bounds 0 and 10. -/
theorem clamp_spec_witness :
    (0 : Int) ≤ 10 ∧ clamp 15 0 10 = 10 ∧ clamp (-3) 0 10 = 0 ∧ clamp 7 0 10 = 7 := by
  have h15 := clamp_spec 15 0 10 (by decide)
  have h3 := clamp_spec (-3) 0 10 (by decide)
  have h7 := clamp_spec 7 0 10 (by decide)
  exact ⟨by decide, h15.2.2.2.2.2 (by decide), h3.2.2.2.2.1 (by decide),
    h7.2.2.2.1 (by decide) (by decide)⟩

end utils
